import Mathlib

/-!
# s4-cleaner: scan-and-sweep engine, age specification and CSV report

A shallow embedding of `pkg/cleaner/cleaner.go` and `pkg/config/config.go`.

* Instants (`time.Time`) are integers: nanoseconds on the absolute time line.
  `Time.Before` is the strict order on instants.
* `int64` values are integers reduced by `wrapInt64` after every arithmetic step.
* An `error` is the text of its message.
* The storage client (`*s3.Client`) is an arbitrary state machine `Client σ`;
  every call of the engine threads the client state and is appended, with its
  response, to the record of calls of the `World`.
* The pointer fields the engine tests for nil (`IsTruncated`, the markers, the
  size of a part) are options; those it dereferences without a test (the key,
  upload id and start instant of an upload, the name of a bucket) are values.
* The `for { ... }` pagination loop is iterated with a bound on the number of
  pages (`fuel`); `none` is a scan that has not finished within the bound.
-/

set_option maxRecDepth 20000

namespace S4Cleaner

/-! ## Data model -/

/-- An instant of `time.Time`: nanoseconds on the absolute time line. -/
abbrev Instant := Int

/-- Reduction of an integer to the signed 64-bit range (two's complement). -/
def wrapInt64 (x : Int) : Int := (x + 2 ^ 63) % 2 ^ 64 - 2 ^ 63

/-- The struct `config.Config`. -/
structure Config where
  Bucket : String
  Time : String
  DoDelete : Bool
  Format : String
  ExpirationTime : Instant
deriving DecidableEq, Repr

/-- The struct `cleaner.FileInfo`; `DeleteSuccess` is the `*bool` field. -/
structure FileInfo where
  Bucket : String
  Key : String
  Size : Int
  ModTime : Instant
  ShouldDelete : Bool
  DeleteSuccess : Option Bool
deriving DecidableEq, Repr

/-- The fields of `types.MultipartUpload` read by the engine. The engine
dereferences `Key`, `UploadId` and `Initiated` without a nil test: a listing
carries all three for every upload. -/
structure MultipartUpload where
  Key : String
  UploadId : String
  Initiated : Instant
deriving DecidableEq, Repr

/-- The field of `types.Part` read by the engine: `Size *int64`. -/
structure Part where
  Size : Option Int
deriving DecidableEq, Repr

/-- The fields of `s3.ListMultipartUploadsOutput` read by the engine. -/
structure ListMultipartUploadsOutput where
  Uploads : List MultipartUpload
  IsTruncated : Option Bool
  NextKeyMarker : Option String
  NextUploadIdMarker : Option String
deriving DecidableEq, Repr

/-- Outcome of a client call: the response or the error message. -/
inductive Resp (α : Type) where
  | ok (value : α)
  | err (message : String)
deriving DecidableEq, Repr

/-- Whether the outcome is a response. -/
def Resp.isOk {α : Type} : Resp α → Bool
  | Resp.ok _ => true
  | Resp.err _ => false

/-- The storage client as a state machine over its own state `σ`. -/
structure Client (σ : Type) where
  ListBuckets : σ → Resp (List String) × σ
  ListMultipartUploads :
    σ → String → Option String → Option String → Resp ListMultipartUploadsOutput × σ
  ListParts : σ → String → String → String → Resp (List Part) × σ
  AbortMultipartUpload : σ → String → String → String → Resp Unit × σ

/-- One call issued to the storage client, with its arguments and response. -/
inductive Call where
  | listBuckets (resp : Resp (List String))
  | listMultipartUploads (bucket : String) (keyMarker uploadIdMarker : Option String)
      (resp : Resp ListMultipartUploadsOutput)
  | listParts (bucket key uploadId : String) (resp : Resp (List Part))
  | abortMultipartUpload (bucket key uploadId : String) (resp : Resp Unit)
deriving DecidableEq, Repr

/-- What a run acts on: the client state and the calls issued so far (oldest
first). -/
structure World (σ : Type) where
  client : σ
  calls : List Call
deriving DecidableEq

/-! ## `pkg/cleaner/cleaner.go`: the engine -/

variable {σ : Type}

/-- `S3Cleaner.abortMultipartUpload`: issues the abort call, returns `err == nil`. -/
def abortMultipartUpload (c : Client σ) (w : World σ) (bucket key uploadId : String) :
    Bool × World σ :=
  let r := c.AbortMultipartUpload w.client bucket key uploadId
  (match r.1 with
   | Resp.ok _ => true
   | Resp.err _ => false,
   { w with client := r.2,
            calls := w.calls ++ [Call.abortMultipartUpload bucket key uploadId r.1] })

/-- The inner loop `for _, part := range parts.Parts` of `processOneBucket`:
`size += *part.Size` in `int64`, skipping parts whose `Size` is nil. -/
def sumPartSizes (parts : List Part) : Int :=
  parts.foldl
    (fun size part =>
      match part.Size with
      | some n => wrapInt64 (size + n)
      | none => size)
    0

/-- The body of the loop `for _, upload := range resp.Uploads` of
`processOneBucket`: one upload gives one `FileInfo`. -/
def processUpload (c : Client σ) (cfg : Config) (bucket : String) (w : World σ)
    (upload : MultipartUpload) : FileInfo × World σ :=
  let shouldDelete : Bool := decide (upload.Initiated < cfg.ExpirationTime)
  let r := c.ListParts w.client bucket upload.Key upload.UploadId
  let w1 : World σ :=
    { w with client := r.2,
             calls := w.calls ++ [Call.listParts bucket upload.Key upload.UploadId r.1] }
  let size : Int :=
    match r.1 with
    | Resp.ok parts => sumPartSizes parts
    | Resp.err _ => 0
  let fileInfo : FileInfo :=
    { Bucket := bucket, Key := upload.Key, Size := size, ModTime := upload.Initiated,
      ShouldDelete := shouldDelete, DeleteSuccess := none }
  if shouldDelete && cfg.DoDelete then
    let a := abortMultipartUpload c w1 bucket upload.Key upload.UploadId
    ({ fileInfo with DeleteSuccess := some a.1 }, a.2)
  else
    (fileInfo, w1)

/-- The loop `for _, upload := range resp.Uploads` of `processOneBucket`. -/
def processUploads (c : Client σ) (cfg : Config) (bucket : String) :
    List MultipartUpload → World σ → List FileInfo → List FileInfo × World σ
  | [], w, files => (files, w)
  | upload :: rest, w, files =>
    let r := processUpload c cfg bucket w upload
    processUploads c cfg bucket rest r.2 (files ++ [r.1])

/-- The text built by `fmt.Errorf` when the listing of a bucket fails. -/
def listErrorf (bucket err : String) : String :=
  "无法列出桶 " ++ bucket ++ " 中的未完成上传: " ++ err ++
    "\nFailed to list multipart uploads in bucket " ++ bucket ++ ": " ++ err

/-- The pagination loop `for { ... }` of `processOneBucket`, at most `fuel`
pages: `none` when the loop has not left within the bound, `Resp.err` for
`return nil, err`, `Resp.ok files` for `return files, nil`. -/
def processPages (c : Client σ) (cfg : Config) (bucket : String) :
    Nat → Option String → Option String → World σ → List FileInfo →
      Option (Resp (List FileInfo)) × World σ
  | 0, _, _, w, _ => (none, w)
  | fuel + 1, keyMarker, uploadIdMarker, w, files =>
    let r := c.ListMultipartUploads w.client bucket keyMarker uploadIdMarker
    let w1 : World σ :=
      { w with client := r.2,
               calls := w.calls ++
                 [Call.listMultipartUploads bucket keyMarker uploadIdMarker r.1] }
    match r.1 with
    | Resp.err e => (some (Resp.err (listErrorf bucket e)), w1)
    | Resp.ok resp =>
      let p := processUploads c cfg bucket resp.Uploads w1 files
      match resp.IsTruncated with
      | some true => processPages c cfg bucket fuel resp.NextKeyMarker resp.NextUploadIdMarker p.2 p.1
      | _ => (some (Resp.ok p.1), p.2)

/-- `S3Cleaner.processOneBucket`. -/
def processOneBucket (fuel : Nat) (c : Client σ) (cfg : Config) (bucket : String)
    (w : World σ) : Option (Resp (List FileInfo)) × World σ :=
  processPages c cfg bucket fuel none none w []

/-- The text built by `fmt.Errorf` when the bucket listing fails. -/
def listBucketsErrorf (err : String) : String :=
  "无法列出桶: " ++ err ++ "\nFailed to list buckets: " ++ err

/-- `S3Cleaner.listBuckets`. -/
def listBuckets (c : Client σ) (w : World σ) : Resp (List String) × World σ :=
  let r := c.ListBuckets w.client
  let w1 : World σ := { w with client := r.2, calls := w.calls ++ [Call.listBuckets r.1] }
  match r.1 with
  | Resp.err e => (Resp.err (listBucketsErrorf e), w1)
  | Resp.ok buckets => (Resp.ok buckets, w1)

/-- The line printed by `Run` (`color.Red`) for a bucket whose scan failed. -/
def bucketErrorLine (bucket err : String) : String :=
  "处理桶 " ++ bucket ++ " 时出错: " ++ err ++
    "\nError processing bucket " ++ bucket ++ ": " ++ err

/-- The loop `for _, bucket := range buckets` of `Run`: `allFiles` is the
collection so far, `printed` the error lines written so far (`color.Red`, one
per bucket whose scan returned an error). `none` when a scan has not finished
within the bound. -/
def runBuckets (fuel : Nat) (c : Client σ) (cfg : Config) :
    List String → World σ → List FileInfo → List String →
      Option (List FileInfo × List String) × World σ
  | [], w, allFiles, printed => (some (allFiles, printed), w)
  | bucket :: rest, w, allFiles, printed =>
    let r := processOneBucket fuel c cfg bucket w
    match r.1 with
    | none => (none, r.2)
    | some (Resp.err err) =>
      runBuckets fuel c cfg rest r.2 allFiles (printed ++ [bucketErrorLine bucket err])
    | some (Resp.ok files) => runBuckets fuel c cfg rest r.2 (allFiles ++ files) printed

/-- The head of `Run`: the bucket of the configuration when there is one,
all buckets of the client otherwise (`Resp.err` is the early `return err`). -/
def resolveBuckets (c : Client σ) (cfg : Config) (w : World σ) :
    Resp (List String) × World σ :=
  if cfg.Bucket ≠ "" then (Resp.ok [cfg.Bucket], w) else listBuckets c w

/-- `S3Cleaner.Run` up to the collection handed to the report renderer. The
first component is `Resp.err` for the early `return err` of a failed bucket
listing and `Resp.ok allFiles` for the collection given to `outputJSON`,
`outputCSV` or `outputTable`; the second is the error lines printed. -/
def Run (fuel : Nat) (c : Client σ) (cfg : Config) (w : World σ) :
    Option (Resp (List FileInfo) × List String) × World σ :=
  let b := resolveBuckets c cfg w
  match b.1 with
  | Resp.err e => (some (Resp.err e, []), b.2)
  | Resp.ok buckets =>
    let r := runBuckets fuel c cfg buckets b.2 [] []
    (r.1.map (fun p => (Resp.ok p.1, p.2)), r.2)

/-! ## Observations on the record of calls -/

/-- The uploads listed by one call: those of a successful list-multipart-uploads
page, each with the bucket of the call. -/
def Call.listed : Call → List (String × MultipartUpload)
  | Call.listMultipartUploads bucket _ _ (Resp.ok resp) => resp.Uploads.map (fun u => (bucket, u))
  | _ => []

/-- All uploads listed in a record of calls, in the order they were listed. -/
def listedUploads : List Call → List (String × MultipartUpload)
  | [] => []
  | call :: rest => call.listed ++ listedUploads rest

/-- The abort calls of a record of calls, as (bucket, key, upload id), in order. -/
def abortCalls : List Call → List (String × String × String)
  | [] => []
  | Call.abortMultipartUpload bucket key uploadId _ :: rest =>
    (bucket, key, uploadId) :: abortCalls rest
  | _ :: rest => abortCalls rest

/-- The list-multipart-uploads calls of a record of calls, as (bucket, key
marker, upload-id marker), in order. -/
def listCalls : List Call → List (String × Option String × Option String)
  | [] => []
  | Call.listMultipartUploads bucket keyMarker uploadIdMarker _ :: rest =>
    (bucket, keyMarker, uploadIdMarker) :: listCalls rest
  | _ :: rest => listCalls rest

/-- An upload is eligible when it was initiated strictly before the cutoff. -/
def eligible (cutoff : Instant) (upload : MultipartUpload) : Bool :=
  decide (upload.Initiated < cutoff)

/-- The abort calls an eligible-only sweep of the listed uploads consists of. -/
def eligibleAborts (cutoff : Instant) (listed : List (String × MultipartUpload)) :
    List (String × String × String) :=
  (listed.filter (fun p => eligible cutoff p.2)).map (fun p => (p.1, p.2.Key, p.2.UploadId))

/-- What a record shows of its upload: bucket, key, start instant, eligibility. -/
def FileInfo.outline (f : FileInfo) : String × String × Instant × Bool :=
  (f.Bucket, f.Key, f.ModTime, f.ShouldDelete)

/-- What the record of a listed upload has to show under a cutoff. -/
def listedOutline (cutoff : Instant) (p : String × MultipartUpload) :
    String × String × Instant × Bool :=
  (p.1, p.2.Key, p.2.Initiated, eligible cutoff p.2)

/-- The sweep discipline on a record of calls: the abort calls are, in order,
those of the eligible listed uploads when deletion is requested, and none
otherwise. -/
def SweepExact (cfg : Config) (calls : List Call) : Prop :=
  abortCalls calls =
    if cfg.DoDelete then eligibleAborts cfg.ExpirationTime (listedUploads calls) else []

/-- The uploads of a sequence of pages: page after page, each in its own order. -/
def uploadsOf : List ListMultipartUploadsOutput → List MultipartUpload
  | [] => []
  | page :: rest => page.Uploads ++ uploadsOf rest

/-- The failed list-multipart-uploads calls of a record of calls, as (bucket,
error message), in order. -/
def listErrors : List Call → List (String × String)
  | [] => []
  | Call.listMultipartUploads bucket _ _ (Resp.err e) :: rest => (bucket, e) :: listErrors rest
  | _ :: rest => listErrors rest

/-- The scans of the buckets, one after the other on the same client: each
bucket with what `processOneBucket` returns for it. -/
def bucketScans (fuel : Nat) (c : Client σ) (cfg : Config) :
    List String → World σ → List (String × Option (Resp (List FileInfo)))
  | [], _ => []
  | bucket :: rest, w =>
    (bucket, (processOneBucket fuel c cfg bucket w).1) ::
      bucketScans fuel c cfg rest (processOneBucket fuel c cfg bucket w).2

/-- The records a scan contributes: its files when it succeeded, none otherwise. -/
def scanRecords : String × Option (Resp (List FileInfo)) → List FileInfo
  | (_, some (Resp.ok files)) => files
  | _ => []

/-- The error lines a scan contributes: one when it failed, none otherwise. -/
def scanErrorLines : String × Option (Resp (List FileInfo)) → List String
  | (bucket, some (Resp.err e)) => [bucketErrorLine bucket e]
  | _ => []

/-- The exact sum of the sizes of the parts, a part without size counting 0. -/
def partsTotal (parts : List Part) : Int :=
  (parts.map (fun part => part.Size.getD 0)).sum

/-- What a scan returns, every record seen through `view`. -/
def viewed (view : FileInfo → FileInfo) :
    Option (Resp (List FileInfo)) → Option (Resp (List FileInfo))
  | some (Resp.ok files) => some (Resp.ok (files.map view))
  | other => other

/-- A record without its size. -/
def FileInfo.withoutSize (f : FileInfo) : FileInfo := { f with Size := 0 }

/-- A record with every reported abort outcome turned into a success. -/
def FileInfo.asIfAborted (f : FileInfo) : FileInfo :=
  { f with DeleteSuccess := f.DeleteSuccess.map (fun _ => true) }

/-- Two clients that differ at most in what their parts lookups respond: the
other calls are the same and the parts lookups move the state alike. -/
def SameButParts (c c' : Client σ) : Prop :=
  c'.ListMultipartUploads = c.ListMultipartUploads ∧
    c'.AbortMultipartUpload = c.AbortMultipartUpload ∧
    ∀ s bucket key uploadId,
      (c'.ListParts s bucket key uploadId).2 = (c.ListParts s bucket key uploadId).2

/-- A world with the given client state in which nothing has happened yet. -/
def World.fresh (s : σ) : World σ := { client := s, calls := [] }

/-- The size the record of an upload has to show for the response of its parts
lookup: the sum of the sizes of the parts as an `int64`, 0 for a failed
lookup. -/
def lookupSize : Resp (List Part) → Int
  | Resp.ok parts => wrapInt64 (partsTotal parts)
  | Resp.err _ => 0

/-- The parts lookups of a record of calls, in order: (bucket, key, upload id)
of the call and its response. -/
def partsLookups : List Call → List ((String × String × String) × Resp (List Part))
  | [] => []
  | Call.listParts bucket key uploadId resp :: rest =>
    ((bucket, key, uploadId), resp) :: partsLookups rest
  | _ :: rest => partsLookups rest

/-- What a parts lookup has to leave in the record of its upload: bucket, key
and size. -/
def lookupShown (p : (String × String × String) × Resp (List Part)) : String × String × Int :=
  (p.1.1, p.1.2.1, lookupSize p.2)

/-- What a record shows of the parts of its upload: bucket, key and size. -/
def FileInfo.sized (f : FileInfo) : String × String × Int := (f.Bucket, f.Key, f.Size)

/-- The identity of a listed upload as the client calls name it: (bucket, key,
upload id). -/
def listedId (p : String × MultipartUpload) : String × String × String :=
  (p.1, p.2.Key, p.2.UploadId)

/-- The outcomes of the abort calls of a record of calls, in order: (bucket,
key, upload id) of the call and whether it returned without error
(`err == nil`). -/
def abortOutcomes : List Call → List ((String × String × String) × Bool)
  | [] => []
  | Call.abortMultipartUpload bucket key uploadId resp :: rest =>
    ((bucket, key, uploadId), resp.isOk) :: abortOutcomes rest
  | _ :: rest => abortOutcomes rest

/-- What an abort call has to leave in the record of its upload: bucket, key
and the outcome. -/
def outcomeShown (a : (String × String × String) × Bool) : String × String × Bool :=
  (a.1.1, a.1.2.1, a.2)

/-- The abort outcomes the records carry, in order: (bucket, key) and the
boolean of every record whose `DeleteSuccess` is set. -/
def recordedOutcomes : List FileInfo → List (String × String × Bool)
  | [] => []
  | f :: rest =>
    match f.DeleteSuccess with
    | some success => (f.Bucket, f.Key, success) :: recordedOutcomes rest
    | none => recordedOutcomes rest

/-! ## `pkg/config/config.go`: the age specification

`int` is the 64-bit `int` of the platforms the tool is built for. The clock
(`time.Now()`) and the calendar arithmetic of `Time.AddDate` are parameters. -/

/-- `time.Hour`: one hour in nanoseconds. -/
def hour : Int := 3600000000000

/-- `FindStringSubmatch` of the regular expression `^(\d+)([dh])$` on a
string: the groups 1 and 2 of the match, `none` when the string does not
match. `\d` is an ASCII digit, `$` the end of the text. -/
def findStringSubmatch (s : List Char) : Option (List Char × Char) :=
  match s.getLast? with
  | none => none
  | some unit =>
    if (unit = 'd' ∨ unit = 'h') ∧ s.dropLast ≠ [] ∧ s.dropLast.all Char.isDigit = true then
      some (s.dropLast, unit)
    else none

/-- The number a string of decimal digits writes. -/
def decimalValue (digits : List Char) : Nat :=
  digits.foldl (fun acc ch => 10 * acc + (ch.toNat - 48)) 0

/-- `strconv.Atoi` on a string of decimal digits: the number, or `none` for
the range error when it does not fit in `int`. -/
def atoi (digits : List Char) : Option Int :=
  if decimalValue digits ≤ 2 ^ 63 - 1 then some (decimalValue digits) else none

/-- The error of `ParseTime` for a string that does not match. -/
def invalidFormatError (t : String) : String :=
  "无效的时间格式 '" ++ t ++
    "'，有效格式为: 数字+单位，如 '7d'（7天）或 '72h'（72小时）\nInvalid time format '" ++ t ++
    "', valid format is: number+unit, e.g. '7d' (7 days) or '72h' (72 hours)"

/-- The error of `ParseTime` for a number `strconv.Atoi` refuses. -/
def invalidValueError (digits : String) : String :=
  "无效的时间值 '" ++ digits ++ "'\nInvalid time value '" ++ digits ++ "'"

/-- The error of `ParseTime` for a unit that is neither `d` nor `h`. -/
def invalidUnitError (unit : String) : String :=
  "无效的时间单位 '" ++ unit ++ "'，有效单位为: d（天）, h（小时）\nInvalid time unit '" ++ unit ++
    "', valid units are: d (days), h (hours)"

/-- `Config.ParseTime`, at the instant `now` of `time.Now()` and with
`addDate now days` for `now.AddDate(0, 0, days)`: the configuration with its
`ExpirationTime` set, or the error. -/
def Config.ParseTime (c : Config) (now : Instant) (addDate : Instant → Int → Instant) :
    Resp Config :=
  match findStringSubmatch c.Time.toList with
  | none => Resp.err (invalidFormatError c.Time)
  | some (digits, unit) =>
    match atoi digits with
    | none => Resp.err (invalidValueError (String.mk digits))
    | some value =>
      if unit = 'd' then
        Resp.ok { c with ExpirationTime := addDate now (wrapInt64 (-value)) }
      else if unit = 'h' then
        Resp.ok { c with ExpirationTime := now + wrapInt64 (wrapInt64 (-value) * hour) }
      else Resp.err (invalidUnitError (String.singleton unit))

/-- `AddDate(0, 0, days)` in a location whose clock never changes, for a number
of days that keeps the result within the years `time.Time` can normalise:
whole days of 24 hours. The scenarios use it with 0 and 7 days. -/
def utcAddDate (t : Instant) (days : Int) : Instant := t + days * (24 * hour)

/-- The form the specification names: a positive integer in decimal digits
followed by the unit `d` or `h`. -/
def PositiveAgeSpec (s : String) : Prop :=
  ∃ digits unit, s.toList = digits ++ [unit] ∧ digits ≠ [] ∧
    (∀ ch ∈ digits, ch.isDigit = true) ∧ 0 < decimalValue digits ∧ (unit = 'd' ∨ unit = 'h')

/-- The form `ParseTime` accepts: decimal digits writing a number of the range
of `int`, followed by the unit `d` or `h`. -/
def AcceptedAgeSpec (s : String) : Prop :=
  ∃ digits unit, s.toList = digits ++ [unit] ∧ digits ≠ [] ∧
    (∀ ch ∈ digits, ch.isDigit = true) ∧ decimalValue digits ≤ 2 ^ 63 - 1 ∧
    (unit = 'd' ∨ unit = 'h')

/-- A configuration with the given age specification and nothing else set. -/
def Config.ofTime (t : String) : Config :=
  { Bucket := "", Time := t, DoDelete := false, Format := "table", ExpirationTime := 0 }

/-! ## `outputCSV` and `encoding/csv`

Strings are sequences of Unicode characters (object keys are UTF-8 text). The
CSV writer is the one of `encoding/csv` with its defaults: comma `,`, records
ended by a line feed. `Time.Format(time.RFC3339)` is a parameter. -/

/-- The double quote. -/
def dquote : Char := Char.ofNat 34

/-- `unicode.IsSpace`. -/
def isSpace (c : Char) : Bool :=
  let n := c.toNat
  (9 ≤ n && n ≤ 13) || n = 32 || n = 133 || n = 160 || n = 5760 ||
    (8192 ≤ n && n ≤ 8202) || n = 8232 || n = 8233 || n = 8239 || n = 8287 || n = 12288

/-- A character the CSV writer cannot leave in a bare field: the comma, the
double quote, carriage return and line feed. -/
def isSpecial (c : Char) : Bool := c = ',' || c = dquote || c = '\r' || c = '\n'

/-- `(*csv.Writer).fieldNeedsQuotes`. -/
def fieldNeedsQuotes (field : List Char) : Bool :=
  match field with
  | [] => false
  | first :: _ =>
    if field = ['\\', '.'] then true
    else if field.any isSpecial then true
    else isSpace first

/-- The inner loop of `(*csv.Writer).Write` on a field that is quoted: a
double quote is doubled, every other character (carriage return and line feed
included) is copied. -/
def escapeQuotes : List Char → List Char
  | [] => []
  | c :: rest => if c = dquote then dquote :: dquote :: escapeQuotes rest else c :: escapeQuotes rest

/-- One field as `(*csv.Writer).Write` writes it. -/
def writeField (field : List Char) : List Char :=
  if fieldNeedsQuotes field then dquote :: (escapeQuotes field ++ [dquote]) else field

/-- The fields of a record as `(*csv.Writer).Write` writes them: a comma
before every field but the first. -/
def writeFields : List String → List Char
  | [] => []
  | [field] => writeField field.toList
  | field :: rest => writeField field.toList ++ ',' :: writeFields rest

/-- `(*csv.Writer).Write`: the fields, then a line feed. -/
def writeRecord (record : List String) : List Char := writeFields record ++ ['\n']

/-- The decimal digit of a number below ten. -/
def digitChar (d : Nat) : Char := Char.ofNat (48 + d)

/-- The decimal digits of a number, at most `fuel` of them. -/
def natDigits : Nat → Nat → List Char
  | 0, _ => []
  | fuel + 1, n =>
    if n < 10 then [digitChar n] else natDigits fuel (n / 10) ++ [digitChar (n % 10)]

/-- `fmt.Sprintf("%d", n)` for a natural number. -/
def formatNat (n : Nat) : List Char := natDigits (n + 1) n

/-- `fmt.Sprintf("%d", n)`. -/
def formatInt (n : Int) : List Char :=
  if n < 0 then '-' :: formatNat n.natAbs else formatNat n.natAbs

/-- The header row of `outputCSV`. -/
def csvHeader : List String :=
  ["Bucket", "Key", "Size", "ModTime", "ShouldDelete", "DeleteSuccess"]

/-- The row `outputCSV` writes for one record. -/
def csvRow (rfc3339 : Instant → String) (file : FileInfo) : List String :=
  [file.Bucket, file.Key, String.mk (formatInt file.Size), rfc3339 file.ModTime,
    if file.ShouldDelete then "true" else "false",
    match file.DeleteSuccess with
    | none => "not_executed"
    | some true => "true"
    | some false => "false"]

/-- The rows of `outputCSV` after the header. -/
def writeRows (rfc3339 : Instant → String) : List FileInfo → List Char
  | [] => []
  | file :: rest => writeRecord (csvRow rfc3339 file) ++ writeRows rfc3339 rest

/-- `S3Cleaner.outputCSV`: the text written to the standard output. -/
def outputCSV (rfc3339 : Instant → String) (files : List FileInfo) : String :=
  String.mk (writeRecord csvHeader ++ writeRows rfc3339 files)

/-! ### Reading CSV back: the `Reader` of `encoding/csv`

`csv.NewReader(r).ReadAll()` with the defaults of the package: comma `,`, no
comment character, `FieldsPerRecord = 0`, neither `LazyQuotes` nor
`TrimLeadingSpace`. In the package `readLine` hands the text over line by
line, a line ending with its line feed, and `readRecord` reads the fields of a
record off the line, a quoted field running on into the following lines. Here
what `readLine` does to the lines is done to the whole text first (no line
feed is added or removed, so the lines of the result are the lines handed
over), and `readRecord` is a machine reading the result character by
character. -/

/-- `readLine`, "Normalize \r\n to \n on all input lines": a carriage return
right before a line feed is removed, every other character stays. -/
def normalizeCRLF : List Char → List Char
  | [] => []
  | [c] => [c]
  | c :: d :: rest =>
    if c = '\r' ∧ d = '\n' then '\n' :: normalizeCRLF rest else c :: normalizeCRLF (d :: rest)

/-- `readLine`, "drop trailing \r before EOF": a carriage return that ends a
last line without line feed is removed. -/
def dropFinalCR (text : List Char) : List Char :=
  if text.getLast? = some '\r' then text.dropLast else text

/-- Where `readRecord` is within a record: before a field, in a field without
quotes, in a quoted field, right after a double quote inside a quoted field. -/
inductive CsvMode where
  | fieldStart
  | bare
  | quoted
  | quoteSeen
deriving DecidableEq, Repr

/-- The state of the reader: the field being read, the fields of the record
being read, the records read. -/
structure CsvState where
  mode : CsvMode
  field : List Char
  row : List String
  rows : List (List String)
deriving DecidableEq, Repr

/-- The reader ends the field being read. -/
def CsvState.endField (st : CsvState) : CsvState :=
  { mode := CsvMode.fieldStart, field := [], row := st.row ++ [String.mk st.field],
    rows := st.rows }

/-- The reader ends the field and the record being read. -/
def CsvState.endRecord (st : CsvState) : CsvState :=
  { mode := CsvMode.fieldStart, field := [], row := [],
    rows := st.rows ++ [st.row ++ [String.mk st.field]] }

/-- One character of the normalised text read by `readRecord`; `none` for a
parse error. Before a field: a double quote opens a quoted field, a comma
ends an empty field, a line feed ends the record with an empty field, but at
the start of a record the line is empty and is skipped. In a field without
quotes: a double quote is `ErrBareQuote`, a comma ends the field, the line
feed the record. In a quoted field every character but the double quote
belongs to the field, line feeds included. After a double quote in a quoted
field: a second one stands for a double quote, a comma ends the field, the
line feed the record, anything else is `ErrQuote`. -/
def csvStep (st : CsvState) (c : Char) : Option CsvState :=
  match st.mode with
  | CsvMode.fieldStart =>
    if c = dquote then some { st with mode := CsvMode.quoted }
    else if c = ',' then some st.endField
    else if c = '\n' then (if st.row = [] then some st else some st.endRecord)
    else some { st with mode := CsvMode.bare, field := [c] }
  | CsvMode.bare =>
    if c = dquote then none
    else if c = ',' then some st.endField
    else if c = '\n' then some st.endRecord
    else some { st with field := st.field ++ [c] }
  | CsvMode.quoted =>
    if c = dquote then some { st with mode := CsvMode.quoteSeen }
    else some { st with field := st.field ++ [c] }
  | CsvMode.quoteSeen =>
    if c = dquote then some { st with mode := CsvMode.quoted, field := st.field ++ [dquote] }
    else if c = ',' then some st.endField
    else if c = '\n' then some st.endRecord
    else none

/-- The reader over a text. -/
def csvRun : CsvState → List Char → Option CsvState
  | st, [] => some st
  | st, c :: rest =>
    match csvStep st c with
    | none => none
    | some st' => csvRun st' rest

/-- The check of `readRecord` with `FieldsPerRecord = 0`: every record has as
many fields as the first (`ErrFieldCount` otherwise). -/
def sameFieldCount : List (List String) → Bool
  | [] => true
  | first :: rest => rest.all (fun record => record.length = first.length)

/-- `(*csv.Reader).ReadAll`: the records of a CSV text, `none` when the reader
returns an error. At the end of the text a record that has begun ends, also
without line feed; a quoted field still open is `ErrQuote`. -/
def ReadAll (text : String) : Option (List (List String)) :=
  match csvRun { mode := CsvMode.fieldStart, field := [], row := [], rows := [] }
      (normalizeCRLF (dropFinalCR text.toList)) with
  | none => none
  | some st =>
    match st.mode with
    | CsvMode.quoted => none
    | mode =>
      let records :=
        if mode = CsvMode.fieldStart ∧ st.row = [] then st.rows else st.endRecord.rows
      if sameFieldCount records then some records else none

/-- A string as the reader of `encoding/csv` gives it back: without the
carriage returns that stand right before a line feed. -/
def crlfAsLf (s : String) : String := String.mk (normalizeCRLF s.toList)

/-- Whether a carriage return stands right before a line feed in the text. -/
def hasCRLF : List Char → Bool
  | [] => false
  | [_] => false
  | c :: d :: rest => (c = '\r' ∧ d = '\n') || hasCRLF (d :: rest)

/-- The number a decimal text writes, with an optional minus sign. -/
def parseInt (text : List Char) : Option Int :=
  match text with
  | '-' :: digits =>
    if digits ≠ [] ∧ digits.all Char.isDigit = true then some (-(decimalValue digits : Int))
    else none
  | digits =>
    if digits ≠ [] ∧ digits.all Char.isDigit = true then some (decimalValue digits : Int)
    else none

/-- What the round trip compares of a record: bucket, key, size, eligibility
and deletion outcome. -/
def FileInfo.csvTuple (f : FileInfo) : String × String × Int × Bool × Option Bool :=
  (f.Bucket, f.Key, f.Size, f.ShouldDelete, f.DeleteSuccess)

/-- A data row read back as a tuple. -/
def decodeRow : List String → Option (String × String × Int × Bool × Option Bool)
  | [bucket, key, size, _modTime, shouldDelete, deleteSuccess] =>
    match parseInt size.toList with
    | none => none
    | some n =>
      match (if shouldDelete = "true" then some true
             else if shouldDelete = "false" then some false else none) with
      | none => none
      | some sd =>
        if deleteSuccess = "not_executed" then some (bucket, key, n, sd, none)
        else if deleteSuccess = "true" then some (bucket, key, n, sd, some true)
        else if deleteSuccess = "false" then some (bucket, key, n, sd, some false)
        else none
  | _ => none

/-- All rows decoded, `none` when one of them is not a data row. -/
def decodeRows : List (List String) → Option (List (String × String × Int × Bool × Option Bool))
  | [] => some []
  | row :: rest =>
    match decodeRow row, decodeRows rest with
    | some t, some ts => some (t :: ts)
    | _, _ => none

/-- What the reader of `encoding/csv` gives back of a record: the tuple with
bucket and key read through `crlfAsLf`. -/
def FileInfo.csvTupleRead (f : FileInfo) : String × String × Int × Bool × Option Bool :=
  (crlfAsLf f.Bucket, crlfAsLf f.Key, f.Size, f.ShouldDelete, f.DeleteSuccess)

/-- A CSV report read back with `ReadAll`: the header row, then the tuples of
the data rows. -/
def readReport (text : String) :
    Option (List String × List (String × String × Int × Bool × Option Bool)) :=
  match ReadAll text with
  | some (header :: rows) =>
    match decodeRows rows with
    | some tuples => some (header, tuples)
    | none => none
  | _ => none

/-! ## `truncateString` and the key column of `outputTable`

A string is the sequence of its runes. The `int` counters of these functions
are bounded by a small multiple of the number of runes of the string, far
below the range of `int`; they are plain integers. -/

/-- The test of `truncateString` for a rune of width 2: the ranges of the CJK
ideographs and their extensions A to E, Hiragana, Katakana, the Hangul
syllables, the CJK compatibility ideographs and the full-width forms. -/
def isWideRune (r : Char) : Bool :=
  let n := r.toNat
  (0x4E00 ≤ n && n ≤ 0x9FFF) || (0x3040 ≤ n && n ≤ 0x309F) || (0x30A0 ≤ n && n ≤ 0x30FF) ||
    (0x3400 ≤ n && n ≤ 0x4DBF) || (0x20000 ≤ n && n ≤ 0x2A6DF) ||
    (0x2A700 ≤ n && n ≤ 0x2B73F) || (0x2B740 ≤ n && n ≤ 0x2B81F) ||
    (0x2B820 ≤ n && n ≤ 0x2CEAF) || (0xAC00 ≤ n && n ≤ 0xD7AF) ||
    (0xF900 ≤ n && n ≤ 0xFAFF) || (0xFF00 ≤ n && n ≤ 0xFFEF)

/-- The `runeWidth` of `truncateString`: 2 for a wide rune, 1 otherwise. -/
def runeWidth (r : Char) : Int := if isWideRune r then 2 else 1

/-- The first loop of `truncateString`: `totalWidth += runeWidth` over the
runes of the string. -/
def totalWidth (s : List Char) : Int := s.foldl (fun width r => width + runeWidth r) 0

/-- The second loop of `truncateString` from the rune it stands at, with
`currentBytes` and `truncated` as they are: it leaves at the first rune that
would go beyond `maxBytes - 3`. -/
def truncateRunes (maxBytes : Int) : List Char → Int → List Char → List Char
  | [], _, truncated => truncated
  | r :: rest, currentBytes, truncated =>
    if currentBytes + runeWidth r > maxBytes - 3 then truncated
    else truncateRunes maxBytes rest (currentBytes + runeWidth r) (truncated ++ [r])

/-- The function `truncateString`. -/
def truncateString (s : String) (maxBytes : Int) : String :=
  if totalWidth s.toList ≤ maxBytes then s
  else String.mk (truncateRunes maxBytes s.toList 0 []) ++ "..."

/-- The key column of a row of `outputTable`: the key, truncated at 120 when
three times its number of runes (`utf8.RuneCountInString`) exceeds 120. -/
def outputTableKey (key : String) : String :=
  if (key.length : Int) * 3 > 120 then truncateString key 120 else key

/-- The width of a sequence of runes: 2 for every wide rune, 1 for every other. -/
def runesWidth (runes : List Char) : Int := (runes.map runeWidth).sum

/-- The width of a string, as the table shows it. -/
def displayWidth (s : String) : Int := runesWidth s.toList

/-- A key of 25 runes and width 34. -/
def demoKey : String := "备份/2025/数据库导出文件-final.sql"

/-- A key of 53 runes and width 83: more than 40 runes, yet not too wide. -/
def demoLongKey : String :=
  "uploads/归档/" ++ "数据库导出文件数据库导出文件数据库导出文件数据库导出文件" ++ "/part-0001.bin"

/-- A key of 77 runes and width 149. -/
def demoWideKey : String :=
  "归档/" ++ "数据库导出文件数据库导出文件数据库导出文件数据库导出文件数据库导出文件" ++
    "数据库导出文件数据库导出文件数据库导出文件数据库导出文件数据库导出文件" ++ ".bin"

/-! ## Clients -/

/-- A client without state: every response is a function of the request. -/
def Client.stateless (buckets : Resp (List String))
    (list : String → Option String → Option String → Resp ListMultipartUploadsOutput)
    (parts : String → String → String → Resp (List Part))
    (abort : String → String → String → Resp Unit) : Client Unit where
  ListBuckets _ := (buckets, ())
  ListMultipartUploads _ bucket keyMarker uploadIdMarker :=
    (list bucket keyMarker uploadIdMarker, ())
  ListParts _ bucket key uploadId := (parts bucket key uploadId, ())
  AbortMultipartUpload _ bucket key uploadId := (abort bucket key uploadId, ())

/-- A client that answers its next list-multipart-uploads calls with the given
pages, in order and successfully, and behaves as `base` in everything else
(and in the list calls after the last page). -/
def Client.withPages (base : Client σ) : Client (List ListMultipartUploadsOutput × σ) where
  ListBuckets s := ((base.ListBuckets s.2).1, (s.1, (base.ListBuckets s.2).2))
  ListMultipartUploads s bucket keyMarker uploadIdMarker :=
    match s.1 with
    | page :: rest => (Resp.ok page, (rest, s.2))
    | [] =>
      ((base.ListMultipartUploads s.2 bucket keyMarker uploadIdMarker).1,
        ([], (base.ListMultipartUploads s.2 bucket keyMarker uploadIdMarker).2))
  ListParts s bucket key uploadId :=
    ((base.ListParts s.2 bucket key uploadId).1,
      (s.1, (base.ListParts s.2 bucket key uploadId).2))
  AbortMultipartUpload s bucket key uploadId :=
    ((base.AbortMultipartUpload s.2 bucket key uploadId).1,
      (s.1, (base.AbortMultipartUpload s.2 bucket key uploadId).2))

/-- A client that reports every abort as successful and otherwise is `c`, its
state moving exactly as that of `c`. -/
def Client.abortsSucceed (c : Client σ) : Client σ :=
  { c with
    AbortMultipartUpload := fun s bucket key uploadId =>
      (Resp.ok (), (c.AbortMultipartUpload s bucket key uploadId).2) }

/-- A client whose every parts lookup fails and that otherwise is `c`, its
state moving exactly as that of `c`. -/
def Client.partsFail (c : Client σ) : Client σ :=
  { c with
    ListParts := fun s bucket key uploadId =>
      (Resp.err "InternalError", (c.ListParts s bucket key uploadId).2) }

/-! ## A worked scenario

Instants are counted from an arbitrary origin; "now" is day 20, the cutoff of
"7 days ago" is day 13. -/

/-- One day in nanoseconds. -/
def day : Int := 86400000000000

/-- Upload X: started 10 days ago. -/
def uploadX : MultipartUpload := { Key := "x.bin", UploadId := "u-x", Initiated := 10 * day }

/-- Upload Y: started 3 days ago. -/
def uploadY : MultipartUpload := { Key := "y.bin", UploadId := "u-y", Initiated := 17 * day }

/-- Upload Z: started exactly at the cutoff. -/
def uploadZ : MultipartUpload := { Key := "z.bin", UploadId := "u-z", Initiated := 13 * day }

/-- Upload V: started 9 days ago; its abort call fails. -/
def uploadV : MultipartUpload := { Key := "v.bin", UploadId := "u-v", Initiated := 11 * day }

/-- First page of bucket "media": X and Y, more to come. -/
def mediaPage1 : ListMultipartUploadsOutput :=
  { Uploads := [uploadX, uploadY], IsTruncated := some true,
    NextKeyMarker := some "y.bin", NextUploadIdMarker := some "u-y" }

/-- Second and last page of bucket "media": V and Z. -/
def mediaPage2 : ListMultipartUploadsOutput :=
  { Uploads := [uploadV, uploadZ], IsTruncated := some false,
    NextKeyMarker := none, NextUploadIdMarker := none }

/-- First page of bucket "locked": X, more to come (the next page fails). -/
def lockedPage1 : ListMultipartUploadsOutput :=
  { Uploads := [uploadX], IsTruncated := some true,
    NextKeyMarker := some "x.bin", NextUploadIdMarker := some "u-x" }

/-- The listing of the scenario: bucket "media" has two pages, bucket "locked"
fails on its second page, bucket "vault" on its first. -/
def demoList (bucket : String) (keyMarker _uploadIdMarker : Option String) :
    Resp ListMultipartUploadsOutput :=
  if bucket = "media" then
    (if keyMarker = none then Resp.ok mediaPage1 else Resp.ok mediaPage2)
  else if bucket = "locked" then
    (if keyMarker = none then Resp.ok lockedPage1 else Resp.err "SlowDown")
  else Resp.err "AccessDenied"

/-- The parts of the scenario: X has parts of 100, 250 and 7 bytes, V a part
without size and one of 5 bytes; every other parts lookup fails. -/
def demoParts (_bucket key _uploadId : String) : Resp (List Part) :=
  if key = "x.bin" then Resp.ok [{ Size := some 100 }, { Size := some 250 }, { Size := some 7 }]
  else if key = "v.bin" then Resp.ok [{ Size := none }, { Size := some 5 }]
  else Resp.err "InternalError"

/-- The aborts of the scenario: every abort succeeds but that of V. -/
def demoAbort (_bucket key _uploadId : String) : Resp Unit :=
  if key = "v.bin" then Resp.err "AccessDenied" else Resp.ok ()

/-- The client of the scenario. -/
def demoClient : Client Unit :=
  Client.stateless (Resp.ok ["vault", "media", "locked"]) demoList demoParts demoAbort

/-- The configuration of the scenario: all buckets, cutoff at day 13. -/
def demoCfg (doDelete : Bool) : Config :=
  { Bucket := "", Time := "7d", DoDelete := doDelete, Format := "csv",
    ExpirationTime := 13 * day }

/-- The records of bucket "media" in the scenario with deletion requested. -/
def mediaRecords : List FileInfo :=
  [{ Bucket := "media", Key := "x.bin", Size := 357, ModTime := 10 * day,
     ShouldDelete := true, DeleteSuccess := some true },
   { Bucket := "media", Key := "y.bin", Size := 0, ModTime := 17 * day,
     ShouldDelete := false, DeleteSuccess := none },
   { Bucket := "media", Key := "v.bin", Size := 5, ModTime := 11 * day,
     ShouldDelete := true, DeleteSuccess := some false },
   { Bucket := "media", Key := "z.bin", Size := 0, ModTime := 13 * day,
     ShouldDelete := false, DeleteSuccess := none }]

/-- The error lines of the scenario: one for "vault", one for "locked". -/
def demoPrinted : List String :=
  [bucketErrorLine "vault" (listErrorf "vault" "AccessDenied"),
   bucketErrorLine "locked" (listErrorf "locked" "SlowDown")]

/-- The scenario of the specification: one bucket with X (10 days old) and Y
(3 days old) on a single page; every abort succeeds. -/
def twoUploadsClient : Client Unit :=
  Client.stateless (Resp.ok ["media"])
    (fun _ _ _ => Resp.ok { Uploads := [uploadX, uploadY], IsTruncated := none,
                            NextKeyMarker := none, NextUploadIdMarker := none })
    demoParts (fun _ _ _ => Resp.ok ())

/-- Parts whose sizes add up to `2^63`, one more than the largest `int64`. -/
def hugeParts : List Part := [{ Size := some 9223372036854775807 }, { Size := some 1 }]

/-- A client with upload X alone on the single page of every bucket, every
parts lookup giving `hugeParts`. -/
def hugePartsClient : Client Unit :=
  Client.stateless (Resp.ok ["media"])
    (fun _ _ _ => Resp.ok { Uploads := [uploadX], IsTruncated := some false,
                            NextKeyMarker := none, NextUploadIdMarker := none })
    (fun _ _ _ => Resp.ok hugeParts) (fun _ _ _ => Resp.ok ())

/-- The world of the scenario once the buckets are listed. -/
def demoListed : World Unit :=
  { client := (), calls := [Call.listBuckets (Resp.ok ["vault", "media", "locked"])] }

/-- A rendering of instants in the manner of RFC 3339, for the scenario: whole
seconds from the origin, as UTC. -/
def demoRfc3339 (t : Instant) : String := String.mk (formatInt (t / 1000000000)) ++ "Z"

/-- Records whose keys and buckets need quoting: comma, double quote, CR LF,
leading blank. -/
def trickyRecords : List FileInfo :=
  [{ Bucket := "a,b", Key := "say \"hi\"", Size := 357, ModTime := 10 * day,
     ShouldDelete := true, DeleteSuccess := some true },
   { Bucket := " lead", Key := "line1\r\nline2", Size := -5, ModTime := 17 * day,
     ShouldDelete := false, DeleteSuccess := none },
   { Bucket := "", Key := "\\.", Size := 0, ModTime := 11 * day,
     ShouldDelete := true, DeleteSuccess := some false }]

/-- Records whose keys and buckets need quoting and hold no carriage return
right before a line feed: comma, double quote, a line feed, a carriage return
on its own, a line feed followed by a carriage return, leading blank. -/
def quotedRecords : List FileInfo :=
  [{ Bucket := "a,b", Key := "say \"hi\"", Size := 357, ModTime := 10 * day,
     ShouldDelete := true, DeleteSuccess := some true },
   { Bucket := " lead", Key := "line1\nline2\rline3\n\r", Size := -5, ModTime := 17 * day,
     ShouldDelete := false, DeleteSuccess := none },
   { Bucket := "", Key := "\\.", Size := 0, ModTime := 11 * day,
     ShouldDelete := true, DeleteSuccess := some false }]

/-! ## Lemmas on the engine -/

theorem listedUploads_append (xs ys : List Call) :
    listedUploads (xs ++ ys) = listedUploads xs ++ listedUploads ys := by
  induction xs with
  | nil => rfl
  | cons x xs ih => simp [listedUploads, ih]

theorem abortCalls_append (xs ys : List Call) :
    abortCalls (xs ++ ys) = abortCalls xs ++ abortCalls ys := by
  induction xs with
  | nil => rfl
  | cons x xs ih => cases x <;> simp [abortCalls, ih]

theorem listCalls_append (xs ys : List Call) :
    listCalls (xs ++ ys) = listCalls xs ++ listCalls ys := by
  induction xs with
  | nil => rfl
  | cons x xs ih => cases x <;> simp [listCalls, ih]

theorem eligibleAborts_append (cutoff : Instant) (xs ys : List (String × MultipartUpload)) :
    eligibleAborts cutoff (xs ++ ys) = eligibleAborts cutoff xs ++ eligibleAborts cutoff ys := by
  simp [eligibleAborts]

/-- The record of calls after one upload: a parts lookup, then the abort call
exactly when the upload is eligible and deletion is requested. -/
theorem processUpload_calls (c : Client σ) (cfg : Config) (bucket : String) (w : World σ)
    (u : MultipartUpload) :
    (processUpload c cfg bucket w u).2.calls =
      w.calls ++
        Call.listParts bucket u.Key u.UploadId (c.ListParts w.client bucket u.Key u.UploadId).1 ::
          (if eligible cfg.ExpirationTime u && cfg.DoDelete then
            [Call.abortMultipartUpload bucket u.Key u.UploadId
              (c.AbortMultipartUpload (c.ListParts w.client bucket u.Key u.UploadId).2
                bucket u.Key u.UploadId).1]
          else []) := by
  unfold processUpload eligible
  by_cases h : (decide (u.Initiated < cfg.ExpirationTime) && cfg.DoDelete) = true
  · simp [h, abortMultipartUpload]
  · simp [h]

/-- Every predicate that holds of the record of a single upload holds of all
records a page adds. -/
theorem processUploads_all (c : Client σ) (cfg : Config) (bucket : String)
    (Q : FileInfo → Prop) (hQ : ∀ w u, Q (processUpload c cfg bucket w u).1) :
    ∀ (us : List MultipartUpload) (w : World σ) (files : List FileInfo),
      (∀ f ∈ files, Q f) → ∀ f ∈ (processUploads c cfg bucket us w files).1, Q f := by
  intro us
  induction us with
  | nil => intro w files h; simpa [processUploads] using h
  | cons u us ih =>
    intro w files h
    simp only [processUploads]
    apply ih
    intro f hf
    rcases List.mem_append.1 hf with hf | hf
    · exact h f hf
    · rw [List.mem_singleton.1 hf]; exact hQ w u

theorem processPages_all (c : Client σ) (cfg : Config) (bucket : String)
    (Q : FileInfo → Prop) (hQ : ∀ w u, Q (processUpload c cfg bucket w u).1) :
    ∀ (fuel : Nat) (km um : Option String) (w : World σ) (files0 files : List FileInfo),
      (∀ f ∈ files0, Q f) →
      (processPages c cfg bucket fuel km um w files0).1 = some (Resp.ok files) →
      ∀ f ∈ files, Q f := by
  intro fuel
  induction fuel with
  | zero => intro km um w files0 files _ h; simp [processPages] at h
  | succ n ih =>
    intro km um w files0 files h0 h
    simp only [processPages] at h
    split at h
    · simp at h
    · rename_i resp hresp
      have hp := processUploads_all c cfg bucket Q hQ resp.Uploads
        { w with client := (c.ListMultipartUploads w.client bucket km um).2,
                 calls := w.calls ++ [Call.listMultipartUploads bucket km um
                   (c.ListMultipartUploads w.client bucket km um).1] } files0 h0
      split at h
      · exact ih _ _ _ _ _ hp h
      · simp only [Option.some.injEq, Resp.ok.injEq] at h
        rw [← h]; exact hp

theorem runBuckets_all (fuel : Nat) (c : Client σ) (cfg : Config)
    (Q : FileInfo → Prop) (hQ : ∀ bucket w u, Q (processUpload c cfg bucket w u).1) :
    ∀ (buckets : List String) (w : World σ) (all0 : List FileInfo) (pr0 : List String)
      (out : List FileInfo × List String),
      (∀ f ∈ all0, Q f) →
      (runBuckets fuel c cfg buckets w all0 pr0).1 = some out → ∀ f ∈ out.1, Q f := by
  intro buckets
  induction buckets with
  | nil =>
    intro w all0 pr0 out h0 h
    simp only [runBuckets, Option.some.injEq] at h
    rw [← h]; exact h0
  | cons b bs ih =>
    intro w all0 pr0 out h0 h
    simp only [runBuckets] at h
    split at h
    · simp at h
    · exact ih _ _ _ _ h0 h
    · rename_i files hfiles
      refine ih _ _ _ _ ?_ h
      intro f hf
      rcases List.mem_append.1 hf with hf | hf
      · exact h0 f hf
      · exact processPages_all c cfg b Q (hQ b) fuel none none w [] files
          (by simp) hfiles f hf

theorem Run_all (fuel : Nat) (c : Client σ) (cfg : Config)
    (Q : FileInfo → Prop) (hQ : ∀ bucket w u, Q (processUpload c cfg bucket w u).1)
    (w : World σ) (all : List FileInfo) (printed : List String)
    (h : (Run fuel c cfg w).1 = some (Resp.ok all, printed)) : ∀ f ∈ all, Q f := by
  unfold Run at h
  cases hb : (resolveBuckets c cfg w).1 with
  | err e => simp [hb] at h
  | ok buckets =>
    simp only [hb] at h
    cases hr : (runBuckets fuel c cfg buckets (resolveBuckets c cfg w).2 [] []).1 with
    | none => simp [hr] at h
    | some out =>
      simp only [hr, Option.map_some', Option.some.injEq, Prod.mk.injEq, Resp.ok.injEq] at h
      rw [← h.1]
      exact runBuckets_all fuel c cfg Q hQ _ _ _ _ _ (by simp) hr

theorem processUpload_outline (c : Client σ) (cfg : Config) (bucket : String) (w : World σ)
    (u : MultipartUpload) :
    (processUpload c cfg bucket w u).1.outline = listedOutline cfg.ExpirationTime (bucket, u) := by
  unfold processUpload FileInfo.outline listedOutline eligible
  by_cases h : (decide (u.Initiated < cfg.ExpirationTime) && cfg.DoDelete) = true
  · simp [h]
  · simp [h]

theorem processUploads_outline (c : Client σ) (cfg : Config) (bucket : String) :
    ∀ (us : List MultipartUpload) (w : World σ) (files : List FileInfo),
      (processUploads c cfg bucket us w files).1.map FileInfo.outline =
        files.map FileInfo.outline ++
          us.map (fun u => listedOutline cfg.ExpirationTime (bucket, u)) := by
  intro us
  induction us with
  | nil => intro w files; simp [processUploads]
  | cons u us ih =>
    intro w files
    simp only [processUploads]
    rw [ih]
    simp [processUpload_outline]

theorem processUploads_listed (c : Client σ) (cfg : Config) (bucket : String) :
    ∀ (us : List MultipartUpload) (w : World σ) (files : List FileInfo),
      listedUploads (processUploads c cfg bucket us w files).2.calls = listedUploads w.calls ∧
      listCalls (processUploads c cfg bucket us w files).2.calls = listCalls w.calls := by
  intro us
  induction us with
  | nil => intro w files; simp [processUploads]
  | cons u us ih =>
    intro w files
    simp only [processUploads]
    rw [(ih _ _).1, (ih _ _).2, processUpload_calls]
    by_cases h : (eligible cfg.ExpirationTime u && cfg.DoDelete) = true
    · simp [h, listedUploads_append, listCalls_append, listedUploads, listCalls, Call.listed]
    · simp [h, listedUploads_append, listCalls_append, listedUploads, listCalls, Call.listed]

theorem processUploads_aborts (c : Client σ) (cfg : Config) (bucket : String) :
    ∀ (us : List MultipartUpload) (w : World σ) (files : List FileInfo),
      abortCalls (processUploads c cfg bucket us w files).2.calls =
        abortCalls w.calls ++
          (if cfg.DoDelete then
            eligibleAborts cfg.ExpirationTime (us.map (fun u => (bucket, u)))
          else []) := by
  intro us
  induction us with
  | nil => intro w files; simp [processUploads, eligibleAborts]
  | cons u us ih =>
    intro w files
    simp only [processUploads]
    rw [ih, processUpload_calls]
    cases hd : cfg.DoDelete <;> cases he : eligible cfg.ExpirationTime u <;>
      simp [hd, he, abortCalls_append, abortCalls, eligibleAborts]

/-- One page keeps the sweep discipline: listing it and processing its uploads. -/
theorem page_sweep (c : Client σ) (cfg : Config) (bucket : String) (km um : Option String)
    (resp : ListMultipartUploadsOutput) (s1 : σ) (w : World σ) (files : List FileInfo)
    (h : SweepExact cfg w.calls) :
    SweepExact cfg (processUploads c cfg bucket resp.Uploads
      { w with client := s1,
               calls := w.calls ++ [Call.listMultipartUploads bucket km um (Resp.ok resp)] }
      files).2.calls := by
  unfold SweepExact at *
  rw [processUploads_aborts, (processUploads_listed c cfg bucket _ _ _).1]
  simp only [abortCalls_append, listedUploads_append, abortCalls, listedUploads, Call.listed,
    List.append_nil, h]
  cases cfg.DoDelete <;> simp [eligibleAborts_append]

theorem processPages_sweep (c : Client σ) (cfg : Config) (bucket : String) :
    ∀ (fuel : Nat) (km um : Option String) (w : World σ) (files0 : List FileInfo),
      SweepExact cfg w.calls →
      SweepExact cfg (processPages c cfg bucket fuel km um w files0).2.calls := by
  intro fuel
  induction fuel with
  | zero => intro km um w files0 h; simpa [processPages] using h
  | succ n ih =>
    intro km um w files0 h
    simp only [processPages]
    split
    · rename_i e he
      unfold SweepExact at *
      simp [abortCalls_append, listedUploads_append, abortCalls, listedUploads, Call.listed,
        he, h]
    · rename_i resp hresp
      have hp := page_sweep c cfg bucket km um resp
        (c.ListMultipartUploads w.client bucket km um).2 w files0 h
      rw [hresp]
      split
      · exact ih _ _ _ _ hp
      · exact hp

theorem runBuckets_sweep (fuel : Nat) (c : Client σ) (cfg : Config) :
    ∀ (buckets : List String) (w : World σ) (all0 : List FileInfo) (pr0 : List String),
      SweepExact cfg w.calls →
      SweepExact cfg (runBuckets fuel c cfg buckets w all0 pr0).2.calls := by
  intro buckets
  induction buckets with
  | nil => intro w all0 pr0 h; simpa [runBuckets] using h
  | cons b bs ih =>
    intro w all0 pr0 h
    have hb := processPages_sweep c cfg b fuel none none w [] h
    simp only [runBuckets]
    split
    · exact hb
    · exact ih _ _ _ hb
    · exact ih _ _ _ hb

theorem listBuckets_calls (c : Client σ) (w : World σ) :
    (listBuckets c w).2.calls = w.calls ++ [Call.listBuckets (c.ListBuckets w.client).1] := by
  unfold listBuckets
  cases h : (c.ListBuckets w.client).1 <;> simp [h]

theorem resolveBuckets_sweep (c : Client σ) (cfg : Config) (w : World σ)
    (h : SweepExact cfg w.calls) : SweepExact cfg (resolveBuckets c cfg w).2.calls := by
  unfold resolveBuckets
  split
  · exact h
  · unfold SweepExact at *
    rw [listBuckets_calls]
    simp [abortCalls_append, listedUploads_append, abortCalls, listedUploads,
      Call.listed, h]

theorem Run_sweep (fuel : Nat) (c : Client σ) (cfg : Config) (w : World σ)
    (h : SweepExact cfg w.calls) : SweepExact cfg (Run fuel c cfg w).2.calls := by
  have hl := resolveBuckets_sweep c cfg w h
  unfold Run
  cases hb : (resolveBuckets c cfg w).1 with
  | err e => simpa [hb] using hl
  | ok buckets =>
    simp only [hb]
    exact runBuckets_sweep fuel c cfg _ _ _ _ hl

theorem processPages_outline (c : Client σ) (cfg : Config) (bucket : String) :
    ∀ (fuel : Nat) (km um : Option String) (w : World σ) (files0 files : List FileInfo),
      files0.map FileInfo.outline =
        (listedUploads w.calls).map (listedOutline cfg.ExpirationTime) →
      (processPages c cfg bucket fuel km um w files0).1 = some (Resp.ok files) →
      files.map FileInfo.outline =
        (listedUploads (processPages c cfg bucket fuel km um w files0).2.calls).map
          (listedOutline cfg.ExpirationTime) := by
  intro fuel
  induction fuel with
  | zero => intro km um w files0 files _ h; simp [processPages] at h
  | succ n ih =>
    intro km um w files0 files h0 h
    simp only [processPages] at h ⊢
    split at h
    · simp at h
    · rename_i resp hresp
      rw [hresp]
      have hp : (processUploads c cfg bucket resp.Uploads
          { w with client := (c.ListMultipartUploads w.client bucket km um).2,
                   calls := w.calls ++ [Call.listMultipartUploads bucket km um (Resp.ok resp)] }
          files0).1.map FileInfo.outline =
          (listedUploads (processUploads c cfg bucket resp.Uploads
            { w with client := (c.ListMultipartUploads w.client bucket km um).2,
                     calls := w.calls ++
                       [Call.listMultipartUploads bucket km um (Resp.ok resp)] }
            files0).2.calls).map (listedOutline cfg.ExpirationTime) := by
        rw [processUploads_outline, (processUploads_listed c cfg bucket _ _ _).1]
        simp [listedUploads_append, listedUploads, Call.listed, h0]
      rw [hresp] at h
      split at h
      · exact ih _ _ _ _ _ hp h
      · simp only [Option.some.injEq, Resp.ok.injEq] at h
        rw [← h]; exact hp

theorem uploadsOf_append (xs ys : List ListMultipartUploadsOutput) :
    uploadsOf (xs ++ ys) = uploadsOf xs ++ uploadsOf ys := by
  induction xs with
  | nil => rfl
  | cons x xs ih => simp [uploadsOf, ih]

/-- Processing uploads leaves the pages still to be served untouched. -/
theorem withPages_processUploads_script (base : Client σ) (cfg : Config) (bucket : String) :
    ∀ (us : List MultipartUpload) (w : World (List ListMultipartUploadsOutput × σ))
      (files : List FileInfo),
      (processUploads base.withPages cfg bucket us w files).2.client.1 = w.client.1 := by
  intro us
  induction us with
  | nil => intro w files; rfl
  | cons u us ih =>
    intro w files
    simp only [processUploads]
    rw [ih]
    unfold processUpload
    by_cases h : (decide (u.Initiated < cfg.ExpirationTime) && cfg.DoDelete) = true
    · simp [h, abortMultipartUpload, Client.withPages]
    · simp [h, Client.withPages]

/-- A scan served `pages` (all truncated) and then `last` (not truncated)
returns after exactly these pages. -/
theorem processPages_withPages (base : Client σ) (cfg : Config) (bucket : String)
    (last : ListMultipartUploadsOutput) (hlast : last.IsTruncated ≠ some true) :
    ∀ (pages : List ListMultipartUploadsOutput) (fuel : Nat) (km um : Option String)
      (w : World (List ListMultipartUploadsOutput × σ)) (files0 : List FileInfo),
      w.client.1 = pages ++ [last] →
      (∀ p ∈ pages, p.IsTruncated = some true) →
      pages.length + 1 ≤ fuel →
      ∃ files,
        (processPages base.withPages cfg bucket fuel km um w files0).1 = some (Resp.ok files) ∧
        files.map FileInfo.outline = files0.map FileInfo.outline ++
          (uploadsOf (pages ++ [last])).map
            (fun u => listedOutline cfg.ExpirationTime (bucket, u)) ∧
        listCalls (processPages base.withPages cfg bucket fuel km um w files0).2.calls =
          listCalls w.calls ++ (bucket, km, um) ::
            pages.map (fun p => (bucket, p.NextKeyMarker, p.NextUploadIdMarker)) := by
  intro pages
  induction pages with
  | nil =>
    intro fuel km um w files0 hs _ hfuel
    obtain ⟨n, rfl⟩ : ∃ n, fuel = n + 1 := ⟨fuel - 1, by omega⟩
    have hr : base.withPages.ListMultipartUploads w.client bucket km um =
        (Resp.ok last, ([], w.client.2)) := by
      simp [Client.withPages, hs]
    simp only [processPages, hr]
    cases htr : last.IsTruncated with
    | none =>
      refine ⟨_, rfl, ?_, ?_⟩
      · simp [processUploads_outline, uploadsOf]
      · simp [(processUploads_listed base.withPages cfg bucket _ _ _).2, listCalls_append,
          listCalls]
    | some b =>
      cases b with
      | true => exact absurd htr hlast
      | false =>
        refine ⟨_, rfl, ?_, ?_⟩
        · simp [processUploads_outline, uploadsOf]
        · simp [(processUploads_listed base.withPages cfg bucket _ _ _).2, listCalls_append,
            listCalls]
  | cons p ps ih =>
    intro fuel km um w files0 hs hmore hfuel
    obtain ⟨n, rfl⟩ : ∃ n, fuel = n + 1 := ⟨fuel - 1, by simp at hfuel; omega⟩
    have hr : base.withPages.ListMultipartUploads w.client bucket km um =
        (Resp.ok p, (ps ++ [last], w.client.2)) := by
      simp [Client.withPages, hs]
    have hp : p.IsTruncated = some true := hmore p (by simp)
    simp only [processPages, hr, hp]
    obtain ⟨files, h1, h2, h3⟩ := ih n p.NextKeyMarker p.NextUploadIdMarker
      (processUploads base.withPages cfg bucket p.Uploads
        { w with client := (ps ++ [last], w.client.2),
                 calls := w.calls ++ [Call.listMultipartUploads bucket km um (Resp.ok p)] }
        files0).2
      (processUploads base.withPages cfg bucket p.Uploads
        { w with client := (ps ++ [last], w.client.2),
                 calls := w.calls ++ [Call.listMultipartUploads bucket km um (Resp.ok p)] }
        files0).1
      (by rw [withPages_processUploads_script])
      (fun q hq => hmore q (by simp [hq]))
      (by simp at hfuel; omega)
    refine ⟨files, h1, ?_, ?_⟩
    · rw [h2, processUploads_outline]
      simp [uploadsOf]
    · rw [h3, (processUploads_listed base.withPages cfg bucket _ _ _).2]
      simp [listCalls_append, listCalls]

/-- The loop of `Run` collects what the scans contribute, bucket by bucket. -/
theorem runBuckets_eq_scans (fuel : Nat) (c : Client σ) (cfg : Config) :
    ∀ (buckets : List String) (w : World σ) (all0 : List FileInfo) (pr0 : List String),
      (∀ r ∈ bucketScans fuel c cfg buckets w, r.2 ≠ none) →
      (runBuckets fuel c cfg buckets w all0 pr0).1 =
        some (all0 ++ (bucketScans fuel c cfg buckets w).flatMap scanRecords,
          pr0 ++ (bucketScans fuel c cfg buckets w).flatMap scanErrorLines) := by
  intro buckets
  induction buckets with
  | nil => intro w all0 pr0 _; simp [runBuckets, bucketScans]
  | cons b bs ih =>
    intro w all0 pr0 hfin
    have hrest : ∀ r ∈ bucketScans fuel c cfg bs (processOneBucket fuel c cfg b w).2,
        r.2 ≠ none := fun r hr => hfin r (by simp [bucketScans, hr])
    have hb : (processOneBucket fuel c cfg b w).1 ≠ none :=
      hfin (b, (processOneBucket fuel c cfg b w).1) (by simp [bucketScans])
    simp only [runBuckets, bucketScans, List.flatMap_cons]
    cases hres : (processOneBucket fuel c cfg b w).1 with
    | none => exact absurd hres hb
    | some r =>
      cases r with
      | err e => simp only [ih _ _ _ hrest]; simp [scanRecords, scanErrorLines]
      | ok files => simp only [ih _ _ _ hrest]; simp [scanRecords, scanErrorLines]

theorem listErrors_append (xs ys : List Call) :
    listErrors (xs ++ ys) = listErrors xs ++ listErrors ys := by
  induction xs with
  | nil => rfl
  | cons x xs ih =>
    cases x with
    | listMultipartUploads b km um r => cases r <;> simp [listErrors, ih]
    | _ => simp [listErrors, ih]

theorem processUploads_listErrors (c : Client σ) (cfg : Config) (bucket : String) :
    ∀ (us : List MultipartUpload) (w : World σ) (files : List FileInfo),
      listErrors (processUploads c cfg bucket us w files).2.calls = listErrors w.calls := by
  intro us
  induction us with
  | nil => intro w files; simp [processUploads]
  | cons u us ih =>
    intro w files
    simp only [processUploads]
    rw [ih, processUpload_calls]
    by_cases h : (eligible cfg.ExpirationTime u && cfg.DoDelete) = true
    · simp [h, listErrors_append, listErrors]
    · simp [h, listErrors_append, listErrors]

/-- A scan returns an error exactly when it ends with a failed list call: the
failed list calls it adds are that one, or none. -/
theorem processPages_listErrors (c : Client σ) (cfg : Config) (bucket : String) :
    ∀ (fuel : Nat) (km um : Option String) (w : World σ) (files0 : List FileInfo),
      (∃ e0, (processPages c cfg bucket fuel km um w files0).1 =
            some (Resp.err (listErrorf bucket e0)) ∧
          listErrors (processPages c cfg bucket fuel km um w files0).2.calls =
            listErrors w.calls ++ [(bucket, e0)]) ∨
      ((∀ e, (processPages c cfg bucket fuel km um w files0).1 ≠ some (Resp.err e)) ∧
        listErrors (processPages c cfg bucket fuel km um w files0).2.calls =
          listErrors w.calls) := by
  intro fuel
  induction fuel with
  | zero => intro km um w files0; right; simp [processPages]
  | succ n ih =>
    intro km um w files0
    simp only [processPages]
    cases hresp : (c.ListMultipartUploads w.client bucket km um).1 with
    | err e =>
      left
      exact ⟨e, rfl, by simp [listErrors_append, listErrors]⟩
    | ok resp =>
      have hl : listErrors (processUploads c cfg bucket resp.Uploads
          { w with client := (c.ListMultipartUploads w.client bucket km um).2,
                   calls := w.calls ++ [Call.listMultipartUploads bucket km um (Resp.ok resp)] }
          files0).2.calls = listErrors w.calls := by
        rw [processUploads_listErrors]
        simp [listErrors_append, listErrors]
      simp only []
      split
      · have := ih resp.NextKeyMarker resp.NextUploadIdMarker
          (processUploads c cfg bucket resp.Uploads
            { w with client := (c.ListMultipartUploads w.client bucket km um).2,
                     calls := w.calls ++
                       [Call.listMultipartUploads bucket km um (Resp.ok resp)] }
            files0).2
          (processUploads c cfg bucket resp.Uploads
            { w with client := (c.ListMultipartUploads w.client bucket km um).2,
                     calls := w.calls ++
                       [Call.listMultipartUploads bucket km um (Resp.ok resp)] }
            files0).1
        rw [hl] at this
        exact this
      · right
        exact ⟨by simp, hl⟩

/-- The error lines of the loop of `Run` are, in order, one per failed list
call of the loop. -/
theorem runBuckets_printed (fuel : Nat) (c : Client σ) (cfg : Config) :
    ∀ (buckets : List String) (w : World σ) (all0 : List FileInfo) (pr0 : List String)
      (out : List FileInfo × List String),
      (runBuckets fuel c cfg buckets w all0 pr0).1 = some out →
      ∃ failed, listErrors (runBuckets fuel c cfg buckets w all0 pr0).2.calls =
          listErrors w.calls ++ failed ∧
        out.2 = pr0 ++ failed.map (fun p => bucketErrorLine p.1 (listErrorf p.1 p.2)) := by
  intro buckets
  induction buckets with
  | nil =>
    intro w all0 pr0 out h
    simp only [runBuckets, Option.some.injEq] at h
    exact ⟨[], by simp [runBuckets], by simp [← h]⟩
  | cons b bs ih =>
    intro w all0 pr0 out h
    simp only [runBuckets] at h ⊢
    rcases processPages_listErrors c cfg b fuel none none w [] with ⟨e0, he, hl⟩ | ⟨hne, hl⟩
    · have he2 : (processOneBucket fuel c cfg b w).1 = some (Resp.err (listErrorf b e0)) := he
      have hl2 : listErrors (processOneBucket fuel c cfg b w).2.calls =
          listErrors w.calls ++ [(b, e0)] := hl
      simp only [he2] at h ⊢
      obtain ⟨failed, h1, h2⟩ := ih _ _ _ _ h
      refine ⟨(b, e0) :: failed, ?_, ?_⟩
      · rw [h1, hl2]; simp
      · rw [h2]; simp
    · have hl2 : listErrors (processOneBucket fuel c cfg b w).2.calls = listErrors w.calls := hl
      cases hres : (processOneBucket fuel c cfg b w).1 with
      | none => simp [hres] at h
      | some r =>
        cases r with
        | err e => exact absurd hres (hne e)
        | ok files =>
          simp only [hres] at h ⊢
          obtain ⟨failed, h1, h2⟩ := ih _ _ _ _ h
          exact ⟨failed, by rw [h1, hl2], h2⟩

/-- The record of calls is an observation only: what the engine returns and
where it leaves the client depend on the client state alone. -/
theorem processUpload_client (c : Client σ) (cfg : Config) (bucket : String)
    (w w' : World σ) (u : MultipartUpload) (h : w.client = w'.client) :
    (processUpload c cfg bucket w u).1 = (processUpload c cfg bucket w' u).1 ∧
      (processUpload c cfg bucket w u).2.client = (processUpload c cfg bucket w' u).2.client := by
  unfold processUpload
  by_cases hd : (decide (u.Initiated < cfg.ExpirationTime) && cfg.DoDelete) = true
  · simp [hd, abortMultipartUpload, h]
  · simp [hd, h]

theorem processUploads_client (c : Client σ) (cfg : Config) (bucket : String) :
    ∀ (us : List MultipartUpload) (w w' : World σ) (files : List FileInfo),
      w.client = w'.client →
      (processUploads c cfg bucket us w files).1 = (processUploads c cfg bucket us w' files).1 ∧
        (processUploads c cfg bucket us w files).2.client =
          (processUploads c cfg bucket us w' files).2.client := by
  intro us
  induction us with
  | nil => intro w w' files h; exact ⟨rfl, h⟩
  | cons u us ih =>
    intro w w' files h
    simp only [processUploads]
    have hu := processUpload_client c cfg bucket w w' u h
    rw [hu.1]
    exact ih _ _ _ hu.2

theorem processPages_client (c : Client σ) (cfg : Config) (bucket : String) :
    ∀ (fuel : Nat) (km um : Option String) (w w' : World σ) (files0 : List FileInfo),
      w.client = w'.client →
      (processPages c cfg bucket fuel km um w files0).1 =
          (processPages c cfg bucket fuel km um w' files0).1 ∧
        (processPages c cfg bucket fuel km um w files0).2.client =
          (processPages c cfg bucket fuel km um w' files0).2.client := by
  intro fuel
  induction fuel with
  | zero => intro km um w w' files0 h; exact ⟨rfl, h⟩
  | succ n ih =>
    intro km um w w' files0 h
    simp only [processPages, ← h]
    cases hresp : (c.ListMultipartUploads w.client bucket km um).1 with
    | err e => exact ⟨rfl, rfl⟩
    | ok resp =>
      have hp := processUploads_client c cfg bucket resp.Uploads
        { w with client := (c.ListMultipartUploads w.client bucket km um).2,
                 calls := w.calls ++ [Call.listMultipartUploads bucket km um (Resp.ok resp)] }
        { w' with client := (c.ListMultipartUploads w.client bucket km um).2,
                  calls := w'.calls ++ [Call.listMultipartUploads bucket km um (Resp.ok resp)] }
        files0 rfl
      simp only []
      split
      · rw [hp.1]
        exact ih _ _ _ _ _ hp.2
      · exact ⟨by rw [hp.1], hp.2⟩

/-- On a client without state the scans of the buckets do not depend on one
another: each is the scan of its bucket alone. -/
theorem bucketScans_stateless (fuel : Nat) (c : Client Unit) (cfg : Config) :
    ∀ (buckets : List String) (w : World Unit),
      bucketScans fuel c cfg buckets w =
        buckets.map (fun b => (b, (processOneBucket fuel c cfg b (World.fresh ())).1)) := by
  intro buckets
  induction buckets with
  | nil => intro w; rfl
  | cons b bs ih =>
    intro w
    have hb : (processOneBucket fuel c cfg b w).1 =
        (processOneBucket fuel c cfg b (World.fresh ())).1 :=
      (processPages_client c cfg b fuel none none w (World.fresh ()) [] rfl).1
    simp only [bucketScans, List.map_cons, ih, hb]

theorem resolveBuckets_listErrors (c : Client σ) (cfg : Config) (w : World σ) :
    listErrors (resolveBuckets c cfg w).2.calls = listErrors w.calls := by
  unfold resolveBuckets
  split
  · rfl
  · rw [listBuckets_calls]; simp [listErrors_append, listErrors]

/-- Two clients that list alike, and whose uploads give records alike under
`view` from equal client states, scan alike under `view`. -/
theorem processUploads_viewed (c c' : Client σ) (cfg : Config) (bucket : String)
    (view : FileInfo → FileInfo)
    (hbody : ∀ (w w' : World σ) (u : MultipartUpload), w.client = w'.client →
      view (processUpload c cfg bucket w u).1 = view (processUpload c' cfg bucket w' u).1 ∧
        (processUpload c cfg bucket w u).2.client = (processUpload c' cfg bucket w' u).2.client) :
    ∀ (us : List MultipartUpload) (w w' : World σ) (files files' : List FileInfo),
      w.client = w'.client → files.map view = files'.map view →
      (processUploads c cfg bucket us w files).1.map view =
          (processUploads c' cfg bucket us w' files').1.map view ∧
        (processUploads c cfg bucket us w files).2.client =
          (processUploads c' cfg bucket us w' files').2.client := by
  intro us
  induction us with
  | nil => intro w w' files files' h hf; exact ⟨hf, h⟩
  | cons u us ih =>
    intro w w' files files' h hf
    simp only [processUploads]
    have hu := hbody w w' u h
    exact ih _ _ _ _ hu.2 (by simp [hf, hu.1])

theorem processPages_viewed (c c' : Client σ) (cfg : Config) (bucket : String)
    (view : FileInfo → FileInfo)
    (hlist : c'.ListMultipartUploads = c.ListMultipartUploads)
    (hbody : ∀ (w w' : World σ) (u : MultipartUpload), w.client = w'.client →
      view (processUpload c cfg bucket w u).1 = view (processUpload c' cfg bucket w' u).1 ∧
        (processUpload c cfg bucket w u).2.client = (processUpload c' cfg bucket w' u).2.client) :
    ∀ (fuel : Nat) (km um : Option String) (w w' : World σ) (files files' : List FileInfo),
      w.client = w'.client → files.map view = files'.map view →
      viewed view (processPages c cfg bucket fuel km um w files).1 =
          viewed view (processPages c' cfg bucket fuel km um w' files').1 ∧
        (processPages c cfg bucket fuel km um w files).2.client =
          (processPages c' cfg bucket fuel km um w' files').2.client := by
  intro fuel
  induction fuel with
  | zero => intro km um w w' files files' h _; exact ⟨rfl, h⟩
  | succ n ih =>
    intro km um w w' files files' h hf
    simp only [processPages, hlist, ← h]
    cases hresp : (c.ListMultipartUploads w.client bucket km um).1 with
    | err e => exact ⟨rfl, rfl⟩
    | ok resp =>
      have hp := processUploads_viewed c c' cfg bucket view hbody resp.Uploads
        { w with client := (c.ListMultipartUploads w.client bucket km um).2,
                 calls := w.calls ++ [Call.listMultipartUploads bucket km um (Resp.ok resp)] }
        { w' with client := (c.ListMultipartUploads w.client bucket km um).2,
                  calls := w'.calls ++ [Call.listMultipartUploads bucket km um (Resp.ok resp)] }
        files files' rfl hf
      simp only []
      split
      · exact ih _ _ _ _ _ _ hp.2 hp.1
      · exact ⟨by simp [viewed, hp.1], hp.2⟩

theorem wrapInt64_of_fits (x : Int) (hlo : -2 ^ 63 ≤ x) (hhi : x < 2 ^ 63) :
    wrapInt64 x = x := by
  unfold wrapInt64
  omega

theorem wrapInt64_add_left (a n : Int) : wrapInt64 (wrapInt64 a + n) = wrapInt64 (a + n) := by
  unfold wrapInt64
  omega

/-- Adding up in `int64` step by step is the exact sum reduced once. -/
theorem sumPartSizes_eq_wrap (parts : List Part) :
    sumPartSizes parts = wrapInt64 (partsTotal parts) := by
  have key : ∀ (ps : List Part) (a : Int),
      ps.foldl (fun size part =>
          match part.Size with
          | some n => wrapInt64 (size + n)
          | none => size) (wrapInt64 a) = wrapInt64 (a + partsTotal ps) := by
    intro ps
    induction ps with
    | nil => intro a; simp [partsTotal]
    | cons q qs ih =>
      intro a
      cases hq : q.Size with
      | none =>
        simp only [List.foldl_cons, hq]
        rw [ih]
        simp [partsTotal, hq]
      | some n =>
        simp only [List.foldl_cons, hq]
        rw [wrapInt64_add_left, ih]
        simp [partsTotal, hq, add_assoc]
  have h0 : wrapInt64 0 = 0 := by decide
  have := key parts 0
  rw [h0] at this
  simpa [sumPartSizes] using this

/-- Parts of sizes between 0 and `bound` add up to at most their number times
`bound`. -/
theorem partsTotal_bounds (bound : Int) (hbound : 0 ≤ bound) :
    ∀ parts : List Part, (∀ p ∈ parts, ∀ n, p.Size = some n → 0 ≤ n ∧ n ≤ bound) →
      0 ≤ partsTotal parts ∧ partsTotal parts ≤ parts.length * bound := by
  intro parts
  induction parts with
  | nil => intro _; simp [partsTotal]
  | cons q qs ih =>
    intro h
    have hq := ih (fun p hp n hn => h p (by simp [hp]) n hn)
    have hb : 0 ≤ q.Size.getD 0 ∧ q.Size.getD 0 ≤ bound := by
      cases hs : q.Size with
      | none => simpa using hbound
      | some n => simpa using h q (by simp) n hs
    have hsum : partsTotal (q :: qs) = q.Size.getD 0 + partsTotal qs := by
      simp [partsTotal]
    have hlen : (((q :: qs).length : Nat) : Int) * bound = bound + (qs.length : Int) * bound := by
      simp only [List.length_cons, Nat.cast_add, Nat.cast_one]
      ring
    rw [hsum, hlen]
    exact ⟨by omega, by omega⟩

theorem viewed_of_fixed (view : FileInfo → FileInfo) (r : Option (Resp (List FileInfo)))
    (h : ∀ files, r = some (Resp.ok files) → ∀ f ∈ files, view f = f) : viewed view r = r := by
  cases r with
  | none => rfl
  | some x =>
    cases x with
    | err e => rfl
    | ok files =>
      have : files.map view = files := by
        conv_rhs => rw [← List.map_id files]
        exact List.map_congr_left (fun f hf => by simpa using h files rfl f hf)
      simp [viewed, this]

theorem partsLookups_append (xs ys : List Call) :
    partsLookups (xs ++ ys) = partsLookups xs ++ partsLookups ys := by
  induction xs with
  | nil => rfl
  | cons x xs ih => cases x <;> simp [partsLookups, ih]

theorem abortOutcomes_append (xs ys : List Call) :
    abortOutcomes (xs ++ ys) = abortOutcomes xs ++ abortOutcomes ys := by
  induction xs with
  | nil => rfl
  | cons x xs ih => cases x <;> simp [abortOutcomes, ih]

theorem recordedOutcomes_append (xs ys : List FileInfo) :
    recordedOutcomes (xs ++ ys) = recordedOutcomes xs ++ recordedOutcomes ys := by
  induction xs with
  | nil => rfl
  | cons x xs ih =>
    cases h : x.DeleteSuccess <;> simp [recordedOutcomes, h, ih]

/-- A relation between the record of calls and the records collected that the
processing of one upload keeps is kept by the processing of a page. -/
theorem processUploads_inv (c : Client σ) (cfg : Config) (bucket : String)
    (Inv : List Call → List FileInfo → Prop)
    (hbody : ∀ (w : World σ) (u : MultipartUpload) (files : List FileInfo),
      Inv w.calls files →
      Inv (processUpload c cfg bucket w u).2.calls
        (files ++ [(processUpload c cfg bucket w u).1])) :
    ∀ (us : List MultipartUpload) (w : World σ) (files : List FileInfo),
      Inv w.calls files →
      Inv (processUploads c cfg bucket us w files).2.calls
        (processUploads c cfg bucket us w files).1 := by
  intro us
  induction us with
  | nil => intro w files h; simpa [processUploads] using h
  | cons u us ih =>
    intro w files h
    simp only [processUploads]
    exact ih _ _ (hbody w u files h)

/-- A relation between the record of calls and the records collected that a
list call and the processing of one upload keep holds of what a scan returns. -/
theorem processPages_inv (c : Client σ) (cfg : Config) (bucket : String)
    (Inv : List Call → List FileInfo → Prop)
    (hlist : ∀ (calls : List Call) (files : List FileInfo) (km um : Option String)
      (r : Resp ListMultipartUploadsOutput),
      Inv calls files → Inv (calls ++ [Call.listMultipartUploads bucket km um r]) files)
    (hbody : ∀ (w : World σ) (u : MultipartUpload) (files : List FileInfo),
      Inv w.calls files →
      Inv (processUpload c cfg bucket w u).2.calls
        (files ++ [(processUpload c cfg bucket w u).1])) :
    ∀ (fuel : Nat) (km um : Option String) (w : World σ) (files0 files : List FileInfo),
      Inv w.calls files0 →
      (processPages c cfg bucket fuel km um w files0).1 = some (Resp.ok files) →
      Inv (processPages c cfg bucket fuel km um w files0).2.calls files := by
  intro fuel
  induction fuel with
  | zero => intro km um w files0 files _ h; simp [processPages] at h
  | succ n ih =>
    intro km um w files0 files h0 h
    simp only [processPages] at h ⊢
    split at h
    · simp at h
    · rename_i resp hresp
      rw [hresp]
      have hp := processUploads_inv c cfg bucket Inv hbody resp.Uploads
        { w with client := (c.ListMultipartUploads w.client bucket km um).2,
                 calls := w.calls ++ [Call.listMultipartUploads bucket km um (Resp.ok resp)] }
        files0 (hlist _ _ _ _ _ h0)
      rw [hresp] at h
      split at h
      · exact ih _ _ _ _ _ hp h
      · simp only [Option.some.injEq, Resp.ok.injEq] at h
        rw [← h]; exact hp

/-- The record of one upload shows the bucket, the key and the size its parts
lookup gives. -/
theorem processUpload_sized (c : Client σ) (cfg : Config) (bucket : String) (w : World σ)
    (u : MultipartUpload) :
    (processUpload c cfg bucket w u).1.sized =
      lookupShown ((bucket, u.Key, u.UploadId),
        (c.ListParts w.client bucket u.Key u.UploadId).1) := by
  have hsum := sumPartSizes_eq_wrap
  unfold processUpload FileInfo.sized lookupShown lookupSize
  by_cases hd : (decide (u.Initiated < cfg.ExpirationTime) && cfg.DoDelete) = true
  · cases hr : (c.ListParts w.client bucket u.Key u.UploadId).1 <;> simp [hd, hr, hsum]
  · cases hr : (c.ListParts w.client bucket u.Key u.UploadId).1 <;> simp [hd, hr, hsum]

/-- The records a scan returns show, one for one and in order, what the parts
lookups of the scan give. -/
theorem processPages_sized (c : Client σ) (cfg : Config) (bucket : String)
    (fuel : Nat) (km um : Option String) (w : World σ) (files : List FileInfo)
    (h : (processPages c cfg bucket fuel km um w []).1 = some (Resp.ok files)) :
    (partsLookups (processPages c cfg bucket fuel km um w []).2.calls).map lookupShown =
      (partsLookups w.calls).map lookupShown ++ files.map FileInfo.sized := by
  refine processPages_inv c cfg bucket
    (fun calls fs => (partsLookups calls).map lookupShown =
      (partsLookups w.calls).map lookupShown ++ fs.map FileInfo.sized)
    ?_ ?_ fuel km um w [] files (by simp) h
  · intro calls fs km um r hinv
    simpa [partsLookups_append, partsLookups] using hinv
  · intro w1 u fs hinv
    rw [processUpload_calls, partsLookups_append]
    by_cases he : (eligible cfg.ExpirationTime u && cfg.DoDelete) = true
    · simp [he, partsLookups, hinv, processUpload_sized]
    · simp [he, partsLookups, hinv, processUpload_sized]

theorem processUploads_lookups (c : Client σ) (cfg : Config) (bucket : String) :
    ∀ (us : List MultipartUpload) (w : World σ) (files : List FileInfo),
      (partsLookups (processUploads c cfg bucket us w files).2.calls).map (fun p => p.1) =
        (partsLookups w.calls).map (fun p => p.1) ++ us.map (fun u => listedId (bucket, u)) := by
  intro us
  induction us with
  | nil => intro w files; simp [processUploads]
  | cons u us ih =>
    intro w files
    simp only [processUploads]
    rw [ih, processUpload_calls]
    by_cases h : (eligible cfg.ExpirationTime u && cfg.DoDelete) = true
    · simp [h, partsLookups_append, partsLookups, listedId]
    · simp [h, partsLookups_append, partsLookups, listedId]

/-- The parts lookups of a scan are, one for one and in order, those of the
uploads it was listed. -/
theorem processPages_lookups (c : Client σ) (cfg : Config) (bucket : String) :
    ∀ (fuel : Nat) (km um : Option String) (w : World σ) (files0 : List FileInfo),
      (partsLookups w.calls).map (fun p => p.1) = (listedUploads w.calls).map listedId →
      (partsLookups (processPages c cfg bucket fuel km um w files0).2.calls).map (fun p => p.1) =
        (listedUploads (processPages c cfg bucket fuel km um w files0).2.calls).map listedId := by
  intro fuel
  induction fuel with
  | zero => intro km um w files0 h; simpa [processPages] using h
  | succ n ih =>
    intro km um w files0 h
    simp only [processPages]
    split
    · rename_i e he
      simp [partsLookups_append, listedUploads_append, partsLookups, listedUploads, Call.listed,
        he, h]
    · rename_i resp hresp
      have hp : (partsLookups (processUploads c cfg bucket resp.Uploads
          { w with client := (c.ListMultipartUploads w.client bucket km um).2,
                   calls := w.calls ++ [Call.listMultipartUploads bucket km um (Resp.ok resp)] }
          files0).2.calls).map (fun p => p.1) =
          (listedUploads (processUploads c cfg bucket resp.Uploads
            { w with client := (c.ListMultipartUploads w.client bucket km um).2,
                     calls := w.calls ++
                       [Call.listMultipartUploads bucket km um (Resp.ok resp)] }
            files0).2.calls).map listedId := by
        rw [processUploads_lookups, (processUploads_listed c cfg bucket _ _ _).1]
        simp [partsLookups_append, listedUploads_append, partsLookups, listedUploads,
          Call.listed, h, listedId]
      rw [hresp]
      split
      · exact ih _ _ _ _ hp
      · exact hp

/-- The abort outcomes are those of the abort calls, call for call. -/
theorem abortOutcomes_calls (calls : List Call) :
    (abortOutcomes calls).map (fun a => a.1) = abortCalls calls := by
  induction calls with
  | nil => rfl
  | cons x xs ih => cases x <;> simp [abortOutcomes, abortCalls, ih]

/-- The abort outcomes the records of a scan carry are, one for one and in
order, the outcomes of the abort calls of the scan. -/
theorem processPages_outcomes (c : Client σ) (cfg : Config) (bucket : String)
    (fuel : Nat) (km um : Option String) (w : World σ) (files : List FileInfo)
    (h : (processPages c cfg bucket fuel km um w []).1 = some (Resp.ok files)) :
    (abortOutcomes (processPages c cfg bucket fuel km um w []).2.calls).map outcomeShown =
      (abortOutcomes w.calls).map outcomeShown ++ recordedOutcomes files := by
  refine processPages_inv c cfg bucket
    (fun calls fs => (abortOutcomes calls).map outcomeShown =
      (abortOutcomes w.calls).map outcomeShown ++ recordedOutcomes fs)
    ?_ ?_ fuel km um w [] files (by simp [recordedOutcomes]) h
  · intro calls fs km um r hinv
    simpa [abortOutcomes_append, abortOutcomes] using hinv
  · intro w1 u fs hinv
    rw [processUpload_calls, abortOutcomes_append, recordedOutcomes_append, List.map_append,
      hinv]
    unfold processUpload eligible
    by_cases he : (decide (u.Initiated < cfg.ExpirationTime) && cfg.DoDelete) = true
    · cases ha : (c.AbortMultipartUpload (c.ListParts w1.client bucket u.Key u.UploadId).2
          bucket u.Key u.UploadId).1 <;>
        simp [he, abortOutcomes, recordedOutcomes, abortMultipartUpload, ha, Resp.isOk,
          outcomeShown]
    · simp [he, abortOutcomes, recordedOutcomes]

/-- The record of one upload has its `DeleteSuccess` set exactly when it is
marked and deletion is requested. -/
theorem processUpload_outcome_set (c : Client σ) (cfg : Config) (bucket : String)
    (w : World σ) (u : MultipartUpload) :
    (processUpload c cfg bucket w u).1.DeleteSuccess ≠ none ↔
      ((processUpload c cfg bucket w u).1.ShouldDelete = true ∧ cfg.DoDelete = true) := by
  unfold processUpload
  by_cases hd : (decide (u.Initiated < cfg.ExpirationTime) && cfg.DoDelete) = true
  · simp only [hd, ↓reduceIte]
    simpa using hd
  · simp only [hd]
    simpa using hd

/-! ## Lemmas on the age specification -/

/-- The regular expression matches exactly the strings made of one or more
ASCII digits and a final `d` or `h`; the groups are the digits and the unit. -/
theorem findStringSubmatch_eq_some_iff (s digits : List Char) (unit : Char) :
    findStringSubmatch s = some (digits, unit) ↔
      (s = digits ++ [unit] ∧ digits ≠ [] ∧ (∀ ch ∈ digits, ch.isDigit = true) ∧
        (unit = 'd' ∨ unit = 'h')) := by
  unfold findStringSubmatch
  constructor
  · intro h
    cases hl : s.getLast? with
    | none => rw [hl] at h; simp at h
    | some u =>
      rw [hl] at h
      simp only at h
      split at h
      · rename_i hc
        simp only [Option.some.injEq, Prod.mk.injEq] at h
        obtain ⟨hd, hu⟩ := h
        subst hu
        refine ⟨?_, ?_, ?_, hc.1⟩
        · rw [← hd]
          exact (List.dropLast_append_getLast? u (by simp [hl])).symm
        · rw [← hd]; exact hc.2.1
        · rw [← hd]
          intro ch hch
          exact (List.all_eq_true.1 hc.2.2) ch hch
      · simp at h
  · rintro ⟨hs, hne, hdig, hu⟩
    have hl : s.getLast? = some unit := by rw [hs]; simp
    have hd : s.dropLast = digits := by rw [hs]; simp
    rw [hl]
    simp only [hd]
    rw [if_pos]
    exact ⟨hu, hne, List.all_eq_true.2 hdig⟩

theorem parseTime_ok_iff (c : Config) (now : Instant) (addDate : Instant → Int → Instant) :
    (∃ c', c.ParseTime now addDate = Resp.ok c') ↔ AcceptedAgeSpec c.Time := by
  constructor
  · rintro ⟨c', h⟩
    unfold Config.ParseTime at h
    cases hm : findStringSubmatch c.Time.toList with
    | none => rw [hm] at h; simp at h
    | some g =>
      obtain ⟨digits, unit⟩ := g
      obtain ⟨hs, hne, hdig, hu⟩ := (findStringSubmatch_eq_some_iff _ _ _).1 hm
      refine ⟨digits, unit, hs, hne, hdig, ?_, hu⟩
      rw [hm] at h
      by_contra hv
      simp only [atoi, if_neg hv] at h
      simp at h
  · rintro ⟨digits, unit, hs, hne, hdig, hv, hu⟩
    have hm := (findStringSubmatch_eq_some_iff c.Time.toList digits unit).2 ⟨hs, hne, hdig, hu⟩
    unfold Config.ParseTime
    rw [hm]
    simp only [atoi, if_pos hv]
    rcases hu with hu | hu
    · exact ⟨_, by rw [if_pos hu]⟩
    · by_cases hd : unit = 'd'
      · exact ⟨_, by rw [if_pos hd]⟩
      · exact ⟨_, by rw [if_neg hd, if_pos hu]⟩

/-! ## Lemmas on the CSV report -/

theorem csvRun_append (a b : List Char) :
    ∀ st : CsvState, csvRun st (a ++ b) = (csvRun st a).bind (fun st' => csvRun st' b) := by
  induction a with
  | nil => intro st; rfl
  | cons c cs ih =>
    intro st
    simp only [List.cons_append, csvRun]
    cases csvStep st c with
    | none => rfl
    | some st' => exact ih st'

/-- Inside an enclosed field the reader undoes the doubling of double quotes. -/
theorem csvRun_escapeQuotes (row : List String) (rows : List (List String)) :
    ∀ (f acc : List Char),
      csvRun { mode := CsvMode.quoted, field := acc, row := row, rows := rows } (escapeQuotes f) =
        some { mode := CsvMode.quoted, field := acc ++ f, row := row, rows := rows } := by
  intro f
  induction f with
  | nil => intro acc; simp [escapeQuotes, csvRun]
  | cons c cs ih =>
    intro acc
    by_cases hc : c = dquote
    · subst hc
      simp only [escapeQuotes, if_true, csvRun, csvStep]
      rw [ih]
      simp
    · simp only [escapeQuotes, if_neg hc, csvRun, csvStep]
      rw [ih]
      simp

/-- A bare field is read as it stands. -/
theorem csvRun_bare (row : List String) (rows : List (List String)) :
    ∀ (f acc : List Char), f.any isSpecial = false →
      csvRun { mode := CsvMode.bare, field := acc, row := row, rows := rows } f =
        some { mode := CsvMode.bare, field := acc ++ f, row := row, rows := rows } := by
  intro f
  induction f with
  | nil => intro acc _; simp [csvRun]
  | cons c cs ih =>
    intro acc h
    simp only [List.any_cons, Bool.or_eq_false_iff] at h
    obtain ⟨hc, hcs⟩ := h
    simp only [isSpecial, Bool.or_eq_false_iff, decide_eq_false_iff_not] at hc
    obtain ⟨⟨⟨h1, h2⟩, _⟩, h4⟩ := hc
    simp only [csvRun, csvStep, if_neg h1, if_neg h2, if_neg h4]
    rw [ih _ hcs]
    simp

theorem fieldNeedsQuotes_false (f : List Char) (h : fieldNeedsQuotes f = false) :
    f.any isSpecial = false := by
  cases f with
  | nil => rfl
  | cons c cs =>
    unfold fieldNeedsQuotes at h
    simp only at h
    split at h
    · simp at h
    · split at h
      · simp at h
      · rename_i _ hany
        simpa using hany

theorem normalizeCRLF_cons_of_ne (c : Char) (hc : c ≠ '\r') (zs : List Char) :
    normalizeCRLF (c :: zs) = c :: normalizeCRLF zs := by
  cases zs with
  | nil => rfl
  | cons d rest => simp [normalizeCRLF, hc]

theorem normalizeCRLF_cons_cons (c d : Char) (zs : List Char) :
    normalizeCRLF (c :: d :: zs) =
      if c = '\r' ∧ d = '\n' then '\n' :: normalizeCRLF zs else c :: normalizeCRLF (d :: zs) := by
  simp [normalizeCRLF]

theorem normalizeCRLF_cons_cons_of_ne (c d : Char) (hd : d ≠ '\n') (zs : List Char) :
    normalizeCRLF (c :: d :: zs) = c :: normalizeCRLF (d :: zs) := by
  simp [normalizeCRLF, hd]

/-- Normalising goes through a concatenation whose second part does not begin
with a line feed. -/
theorem normalizeCRLF_append (ys : List Char) (hy : ys.head? ≠ some '\n') :
    ∀ (n : Nat) (xs : List Char), xs.length ≤ n →
      normalizeCRLF (xs ++ ys) = normalizeCRLF xs ++ normalizeCRLF ys := by
  intro n
  induction n with
  | zero =>
    intro xs hn
    have : xs = [] := List.length_eq_zero.1 (by omega)
    subst this
    rfl
  | succ k ih =>
    intro xs hn
    match xs, hn with
    | [], _ => rfl
    | [c], _ =>
      cases ys with
      | nil => simp [normalizeCRLF]
      | cons y ys' =>
        have hy' : y ≠ '\n' := by simpa using hy
        simp [normalizeCRLF, hy']
    | c :: d :: rest, hn =>
      have h1 := ih rest (by simp only [List.length_cons] at hn; omega)
      have h2 := ih (d :: rest) (by simp only [List.length_cons] at hn ⊢; omega)
      have e : c :: d :: rest ++ ys = c :: d :: (rest ++ ys) := rfl
      have e2 : d :: rest ++ ys = d :: (rest ++ ys) := rfl
      rw [e2] at h2
      rw [e, normalizeCRLF_cons_cons, normalizeCRLF_cons_cons]
      by_cases hcd : c = '\r' ∧ d = '\n'
      · rw [if_pos hcd, if_pos hcd, h1]; rfl
      · rw [if_neg hcd, if_neg hcd, h2]; rfl

/-- A text without carriage return is left as it is, whatever follows it. -/
theorem normalizeCRLF_append_of_noCR (ys : List Char) :
    ∀ xs : List Char, (∀ c ∈ xs, c ≠ '\r') →
      normalizeCRLF (xs ++ ys) = xs ++ normalizeCRLF ys := by
  intro xs
  induction xs with
  | nil => intro _; rfl
  | cons c cs ih =>
    intro h
    rw [List.cons_append, normalizeCRLF_cons_of_ne c (h c (by simp)),
      ih (fun x hx => h x (by simp [hx]))]
    rfl

theorem normalizeCRLF_of_noCR (xs : List Char) (h : ∀ c ∈ xs, c ≠ '\r') :
    normalizeCRLF xs = xs := by
  have := normalizeCRLF_append_of_noCR [] xs h
  simpa [normalizeCRLF] using this

/-- A text in which no carriage return stands right before a line feed is left
as it is. -/
theorem normalizeCRLF_of_hasCRLF_false :
    ∀ (n : Nat) (xs : List Char), xs.length ≤ n → hasCRLF xs = false →
      normalizeCRLF xs = xs := by
  intro n
  induction n with
  | zero =>
    intro xs hn _
    have : xs = [] := List.length_eq_zero.1 (by omega)
    subst this
    rfl
  | succ k ih =>
    intro xs hn h
    match xs, hn, h with
    | [], _, _ => rfl
    | [c], _, _ => rfl
    | c :: d :: rest, hn, h =>
      simp only [hasCRLF, Bool.or_eq_false_iff, decide_eq_false_iff_not] at h
      simp only [normalizeCRLF, if_neg h.1]
      rw [ih (d :: rest) (by simp only [List.length_cons] at hn ⊢; omega) h.2]

theorem escapeQuotes_head (d : Char) (rest : List Char) :
    ∃ zs, escapeQuotes (d :: rest) = d :: zs := by
  by_cases hd : d = dquote
  · exact ⟨dquote :: escapeQuotes rest, by simp [escapeQuotes, hd]⟩
  · exact ⟨escapeQuotes rest, by simp [escapeQuotes, hd]⟩

/-- Normalising a quoted field as written is writing the normalised field. -/
theorem normalizeCRLF_escapeQuotes :
    ∀ (n : Nat) (f : List Char), f.length ≤ n →
      normalizeCRLF (escapeQuotes f) = escapeQuotes (normalizeCRLF f) := by
  have hq : dquote ≠ '\r' := by decide
  have hqn : dquote ≠ '\n' := by decide
  intro n
  induction n with
  | zero =>
    intro f hn
    have : f = [] := List.length_eq_zero.1 (by omega)
    subst this
    rfl
  | succ k ih =>
    intro f hn
    match f, hn with
    | [], _ => rfl
    | [c], _ =>
      by_cases hc : c = dquote
      · subst hc; decide
      · simp [escapeQuotes, hc, normalizeCRLF]
    | c :: d :: rest, hn =>
      have h1 := ih rest (by simp only [List.length_cons] at hn; omega)
      have h2 := ih (d :: rest) (by simp only [List.length_cons] at hn ⊢; omega)
      by_cases hcd : c = '\r' ∧ d = '\n'
      · obtain ⟨hc, hd⟩ := hcd
        subst hc; subst hd
        have e1 : escapeQuotes ('\r' :: '\n' :: rest) = '\r' :: '\n' :: escapeQuotes rest := by
          simp [escapeQuotes, show ('\r' : Char) ≠ dquote by decide,
            show ('\n' : Char) ≠ dquote by decide]
        have e2 : normalizeCRLF ('\r' :: '\n' :: rest) = '\n' :: normalizeCRLF rest := by
          simp [normalizeCRLF]
        have e3 : normalizeCRLF ('\r' :: '\n' :: escapeQuotes rest) =
            '\n' :: normalizeCRLF (escapeQuotes rest) := by
          simp [normalizeCRLF]
        rw [e1, e2, e3, h1]
        simp [escapeQuotes, show ('\n' : Char) ≠ dquote by decide]
      · have e2 : normalizeCRLF (c :: d :: rest) = c :: normalizeCRLF (d :: rest) := by
          simp only [normalizeCRLF, if_neg hcd]
        rw [e2]
        by_cases hc : c = dquote
        · subst hc
          have e1 : ∀ zs, escapeQuotes (dquote :: zs) = dquote :: dquote :: escapeQuotes zs := by
            intro zs; simp [escapeQuotes]
          rw [e1, e1, normalizeCRLF_cons_of_ne _ hq, normalizeCRLF_cons_of_ne _ hq, h2]
        · have e1 : ∀ zs, escapeQuotes (c :: zs) = c :: escapeQuotes zs := by
            intro zs; simp [escapeQuotes, hc]
          rw [e1, e1, ← h2]
          by_cases hr : c = '\r'
          · have hd : d ≠ '\n' := fun hd => hcd ⟨hr, hd⟩
            obtain ⟨zs, hzs⟩ := escapeQuotes_head d rest
            rw [hzs, normalizeCRLF_cons_cons_of_ne c d hd]
          · rw [normalizeCRLF_cons_of_ne c hr]

/-- A field that needs no quotes holds no special character. -/
theorem noCR_of_any_isSpecial_false (f : List Char) (h : f.any isSpecial = false) :
    ∀ c ∈ f, c ≠ '\r' := by
  intro c hc hr
  have := List.any_eq_false.1 h c hc
  simp [isSpecial, hr] at this

/-- What `readLine` makes of a written field and the separator after it. -/
theorem normalizeCRLF_writeField (f : List Char) (sep : Char) (hsep : sep ≠ '\r')
    (rest : List Char) :
    normalizeCRLF (writeField f ++ sep :: rest) =
      (if fieldNeedsQuotes f then dquote :: (escapeQuotes (normalizeCRLF f) ++ [dquote]) else f) ++
        sep :: normalizeCRLF rest := by
  have hq : dquote ≠ '\r' := by decide
  unfold writeField
  by_cases hn : fieldNeedsQuotes f = true
  · rw [if_pos hn, if_pos hn]
    have e : dquote :: (escapeQuotes f ++ [dquote]) ++ sep :: rest =
        dquote :: (escapeQuotes f ++ dquote :: sep :: rest) := by simp
    rw [e, normalizeCRLF_cons_of_ne _ hq,
      normalizeCRLF_append (dquote :: sep :: rest)
        (fun h => absurd (Option.some.inj h) (by decide)) _ _ (le_refl _),
      normalizeCRLF_escapeQuotes _ _ (le_refl _), normalizeCRLF_cons_of_ne _ hq,
      normalizeCRLF_cons_of_ne _ hsep]
    simp
  · have hn' : fieldNeedsQuotes f = false := by simpa using hn
    rw [if_neg hn, if_neg hn,
      normalizeCRLF_append_of_noCR _ _ (noCR_of_any_isSpecial_false f (fieldNeedsQuotes_false f hn')),
      normalizeCRLF_cons_of_ne _ hsep]

/-- What the reader has after a normalised written field: the normalised
field, in one of the three modes in which a separator ends it. -/
theorem csvRun_writeField (row : List String) (rows : List (List String)) (f : List Char) :
    ∃ mode, mode ≠ CsvMode.quoted ∧ (mode = CsvMode.fieldStart → f = []) ∧
      csvRun { mode := CsvMode.fieldStart, field := [], row := row, rows := rows }
          (if fieldNeedsQuotes f then dquote :: (escapeQuotes (normalizeCRLF f) ++ [dquote])
           else f) =
        some { mode := mode, field := normalizeCRLF f, row := row, rows := rows } := by
  by_cases hq : fieldNeedsQuotes f = true
  · refine ⟨CsvMode.quoteSeen, by decide, (by intro h; cases h), ?_⟩
    rw [if_pos hq]
    simp only [csvRun, csvStep, if_true]
    rw [csvRun_append, csvRun_escapeQuotes]
    simp [csvRun, csvStep]
  · have hq' : fieldNeedsQuotes f = false := by simpa using hq
    have hany := fieldNeedsQuotes_false _ hq'
    have hnorm : normalizeCRLF f = f :=
      normalizeCRLF_of_noCR f (noCR_of_any_isSpecial_false f hany)
    rw [if_neg hq, hnorm]
    cases f with
    | nil => exact ⟨CsvMode.fieldStart, by decide, fun _ => rfl, rfl⟩
    | cons c cs =>
      refine ⟨CsvMode.bare, by decide, (by intro h; cases h), ?_⟩
      simp only [List.any_cons, Bool.or_eq_false_iff] at hany
      obtain ⟨hc, hcs⟩ := hany
      simp only [isSpecial, Bool.or_eq_false_iff, decide_eq_false_iff_not] at hc
      obtain ⟨⟨⟨h1, h2⟩, _⟩, h4⟩ := hc
      simp only [csvRun, csvStep, if_neg h1, if_neg h2, if_neg h4]
      rw [csvRun_bare row rows cs [c] hcs]
      simp

/-- A separator after a field ends the field (comma) or, the record having a
field already or the field not being empty and bare, the record (line feed). -/
theorem csvStep_separator (mode : CsvMode) (f : List Char) (row : List String)
    (rows : List (List String)) (hm : mode ≠ CsvMode.quoted) :
    csvStep { mode := mode, field := f, row := row, rows := rows } ',' =
        some { mode := CsvMode.fieldStart, field := [], row := row ++ [String.mk f],
               rows := rows } ∧
      ((mode = CsvMode.fieldStart → row ≠ []) →
        csvStep { mode := mode, field := f, row := row, rows := rows } '\n' =
          some { mode := CsvMode.fieldStart, field := [], row := [],
                 rows := rows ++ [row ++ [String.mk f]] }) := by
  have h1 : ',' ≠ dquote := by decide
  have h2 : '\n' ≠ dquote := by decide
  have h3 : '\n' ≠ ',' := by decide
  cases mode with
  | quoted => exact absurd rfl hm
  | fieldStart =>
    refine ⟨by simp [csvStep, h1, CsvState.endField], fun hrow => ?_⟩
    simp [csvStep, h2, h3, CsvState.endRecord, hrow rfl]
  | bare => simp [csvStep, h1, h2, h3, CsvState.endField, CsvState.endRecord]
  | quoteSeen => simp [csvStep, h1, h2, h3, CsvState.endField, CsvState.endRecord]

/-- A written record of two fields or more, or one that continues a record, is
read back as its fields, each without the carriage returns before line
feeds. -/
theorem csvRun_writeRecord (rows : List (List String)) (rest : List Char) :
    ∀ (record : List String) (row : List String), record ≠ [] →
      (row ≠ [] ∨ 2 ≤ record.length) →
      csvRun { mode := CsvMode.fieldStart, field := [], row := row, rows := rows }
          (normalizeCRLF (writeRecord record ++ rest)) =
        csvRun { mode := CsvMode.fieldStart, field := [], row := [],
                 rows := rows ++ [row ++ record.map crlfAsLf] } (normalizeCRLF rest) := by
  intro record
  induction record with
  | nil => intro row h; exact absurd rfl h
  | cons f fs ih =>
    intro row _ hlen
    obtain ⟨mode, hm, _, hrun⟩ := csvRun_writeField row rows f.toList
    have hsep := csvStep_separator mode (normalizeCRLF f.toList) row rows hm
    have hf : String.mk (normalizeCRLF f.toList) = crlfAsLf f := rfl
    rw [hf] at hsep
    cases fs with
    | nil =>
      have hrow : row ≠ [] := by
        rcases hlen with h | h
        · exact h
        · simp at h
      have e : writeRecord [f] ++ rest = writeField f.toList ++ '\n' :: rest := by
        simp [writeRecord, writeFields]
      rw [e, normalizeCRLF_writeField _ _ (by decide), csvRun_append, hrun]
      simp only [Option.bind, csvRun, hsep.2 (fun _ => hrow), List.map_cons, List.map_nil]
    | cons g gs =>
      have := ih (row ++ [crlfAsLf f]) (by simp) (Or.inl (by simp))
      have e : writeRecord (f :: g :: gs) ++ rest =
          writeField f.toList ++ ',' :: (writeRecord (g :: gs) ++ rest) := by
        simp [writeRecord, writeFields]
      rw [e, normalizeCRLF_writeField _ _ (by decide), csvRun_append, hrun]
      simp only [Option.bind, csvRun, hsep.1]
      rw [this]
      simp

theorem csvRun_writeRows (rfc3339 : Instant → String) :
    ∀ (files : List FileInfo) (rows : List (List String)),
      csvRun { mode := CsvMode.fieldStart, field := [], row := [], rows := rows }
          (normalizeCRLF (writeRows rfc3339 files)) =
        some { mode := CsvMode.fieldStart, field := [], row := [],
               rows := rows ++ files.map (fun f => (csvRow rfc3339 f).map crlfAsLf) } := by
  intro files
  induction files with
  | nil => intro rows; simp [writeRows, csvRun, normalizeCRLF]
  | cons f fs ih =>
    intro rows
    simp only [writeRows]
    rw [csvRun_writeRecord rows _ (csvRow rfc3339 f) [] (by simp [csvRow])
      (Or.inr (by simp [csvRow])), ih]
    simp

/-- The rows written end with a line feed. -/
theorem writeRows_getLast (rfc3339 : Instant → String) :
    ∀ files : List FileInfo,
      writeRows rfc3339 files = [] ∨ (writeRows rfc3339 files).getLast? = some '\n' := by
  intro files
  induction files with
  | nil => exact Or.inl rfl
  | cons f fs ih =>
    right
    simp only [writeRows, writeRecord]
    rcases ih with h | h
    · rw [h]; simp
    · rw [List.getLast?_append, h]; simp

/-- The text of `outputCSV` is read back by `ReadAll` as the header row and the
rows of the records, in order, each field without the carriage returns before
line feeds. -/
theorem ReadAll_outputCSV (rfc3339 : Instant → String) (files : List FileInfo) :
    ReadAll (outputCSV rfc3339 files) =
      some (csvHeader :: files.map (fun f => (csvRow rfc3339 f).map crlfAsLf)) := by
  unfold ReadAll outputCSV
  have ht : (String.mk (writeRecord csvHeader ++ writeRows rfc3339 files)).toList =
      writeRecord csvHeader ++ writeRows rfc3339 files := rfl
  have hlast : (writeRecord csvHeader ++ writeRows rfc3339 files).getLast? = some '\n' := by
    rcases writeRows_getLast rfc3339 files with h | h
    · rw [h]; decide
    · rw [List.getLast?_append, h]; simp
  have hdrop : dropFinalCR (writeRecord csvHeader ++ writeRows rfc3339 files) =
      writeRecord csvHeader ++ writeRows rfc3339 files := by
    unfold dropFinalCR
    rw [hlast, if_neg (by decide)]
  have h := csvRun_writeRecord [] (writeRows rfc3339 files) csvHeader [] (by decide)
    (Or.inr (by decide))
  rw [csvRun_writeRows] at h
  have hh : csvHeader.map crlfAsLf = csvHeader := by decide
  rw [ht, hdrop, h, hh]
  have hcount : sameFieldCount
      (csvHeader :: files.map (fun f => (csvRow rfc3339 f).map crlfAsLf)) = true := by
    simp [sameFieldCount, csvRow, csvHeader]
  simp [hcount]

theorem decimalValue_concat (digits : List Char) (c : Char) :
    decimalValue (digits ++ [c]) = 10 * decimalValue digits + (c.toNat - 48) := by
  simp [decimalValue, List.foldl_append]

theorem digitChar_spec : ∀ d, d < 10 →
    (digitChar d).isDigit = true ∧ (digitChar d).toNat - 48 = d ∧ digitChar d ≠ '-' := by
  decide

/-- The decimal digits of a number write that number. -/
theorem natDigits_spec : ∀ (fuel n : Nat), n < fuel →
    natDigits fuel n ≠ [] ∧ (natDigits fuel n).all Char.isDigit = true ∧
      decimalValue (natDigits fuel n) = n ∧ (natDigits fuel n).head? ≠ some '-' := by
  intro fuel
  induction fuel with
  | zero => intro n h; omega
  | succ k ih =>
    intro n h
    unfold natDigits
    by_cases hn : n < 10
    · rw [if_pos hn]
      obtain ⟨h1, h2, h3⟩ := digitChar_spec n hn
      refine ⟨by simp, by simp [h1], ?_, ?_⟩
      · simp [decimalValue, h2]
      · simpa using h3
    · rw [if_neg hn]
      obtain ⟨i1, i2, i3, i4⟩ := ih (n / 10) (by omega)
      obtain ⟨h1, h2, _⟩ := digitChar_spec (n % 10) (by omega)
      refine ⟨by simp, ?_, ?_, ?_⟩
      · simp [List.all_append, i2, h1]
      · rw [decimalValue_concat, i3, h2]; omega
      · cases hd : natDigits k (n / 10) with
        | nil => exact absurd hd i1
        | cons c cs => rw [hd] at i4; simpa using i4

/-- What `%d` writes reads back as the number. -/
theorem parseInt_formatInt (n : Int) : parseInt (formatInt n) = some n := by
  obtain ⟨h1, h2, h3, h4⟩ := natDigits_spec (n.natAbs + 1) n.natAbs (by omega)
  unfold formatInt formatNat
  by_cases hn : n < 0
  · rw [if_pos hn]
    simp only [parseInt]
    rw [if_pos ⟨h1, h2⟩, h3]
    congr 1
    omega
  · rw [if_neg hn]
    cases hd : natDigits (n.natAbs + 1) n.natAbs with
    | nil => exact absurd hd h1
    | cons c cs =>
      rw [hd] at h1 h2 h3 h4
      have hc : c ≠ '-' := by simpa using h4
      unfold parseInt
      split
      · rename_i ds heq
        simp only [List.cons.injEq] at heq
        exact absurd heq.1.symm (by simpa using hc.symm)
      · rw [if_pos ⟨h1, h2⟩, h3]
        congr 1
        omega

/-- What `%d` writes holds no carriage return. -/
theorem formatInt_noCR (n : Int) : ∀ c ∈ formatInt n, c ≠ '\r' := by
  obtain ⟨_, h2, _, _⟩ := natDigits_spec (n.natAbs + 1) n.natAbs (by omega)
  have hd : ∀ c ∈ natDigits (n.natAbs + 1) n.natAbs, c ≠ '\r' := by
    intro c hc hr
    have := List.all_eq_true.1 h2 c hc
    rw [hr] at this
    exact absurd this (by decide)
  intro c hc
  unfold formatInt formatNat at hc
  by_cases hn : n < 0
  · rw [if_pos hn] at hc
    rcases List.mem_cons.1 hc with h | h
    · rw [h]; decide
    · exact hd c h
  · rw [if_neg hn] at hc
    exact hd c hc

/-- A row as `ReadAll` gives it back decodes to the tuple of its record, bucket
and key without the carriage returns before line feeds. -/
theorem decodeRow_csvRow (rfc3339 : Instant → String) (f : FileInfo) :
    decodeRow ((csvRow rfc3339 f).map crlfAsLf) = some f.csvTupleRead := by
  have hs : (crlfAsLf (String.mk (formatInt f.Size))).toList = formatInt f.Size :=
    normalizeCRLF_of_noCR _ (formatInt_noCR f.Size)
  have h1 : ("false" = "true") = False := by decide
  have h2 : ("true" = "not_executed") = False := by decide
  have h3 : ("false" = "not_executed") = False := by decide
  have t1 : crlfAsLf "true" = "true" := by decide
  have t2 : crlfAsLf "false" = "false" := by decide
  have t3 : crlfAsLf "not_executed" = "not_executed" := by decide
  unfold csvRow FileInfo.csvTupleRead
  simp only [List.map_cons, List.map_nil, decodeRow, hs, parseInt_formatInt]
  cases hsd : f.ShouldDelete <;> cases hds : f.DeleteSuccess with
  | none => simp [h1, t1, t2, t3]
  | some b => cases b <;> simp [h1, h2, h3, t1, t2, t3]

theorem decodeRows_csvRows (rfc3339 : Instant → String) :
    ∀ files : List FileInfo,
      decodeRows (files.map (fun f => (csvRow rfc3339 f).map crlfAsLf)) =
        some (files.map FileInfo.csvTupleRead) := by
  intro files
  induction files with
  | nil => rfl
  | cons f fs ih => simp only [List.map_cons, decodeRows, decodeRow_csvRow, ih]

/-- The report of `outputCSV` read back: the header and, record for record, the
tuple with bucket and key without the carriage returns before line feeds. -/
theorem readReport_outputCSV (rfc3339 : Instant → String) (files : List FileInfo) :
    readReport (outputCSV rfc3339 files) = some (csvHeader, files.map FileInfo.csvTupleRead) := by
  unfold readReport
  rw [ReadAll_outputCSV]
  simp only [decodeRows_csvRows]

/-- The tuple read back is the tuple of the record when neither bucket nor key
has a carriage return right before a line feed. -/
theorem csvTupleRead_eq (f : FileInfo) (hb : hasCRLF f.Bucket.toList = false)
    (hk : hasCRLF f.Key.toList = false) : f.csvTupleRead = f.csvTuple := by
  have e1 : crlfAsLf f.Bucket = f.Bucket := by
    unfold crlfAsLf
    rw [normalizeCRLF_of_hasCRLF_false _ _ (le_refl _) hb]
    rfl
  have e2 : crlfAsLf f.Key = f.Key := by
    unfold crlfAsLf
    rw [normalizeCRLF_of_hasCRLF_false _ _ (le_refl _) hk]
    rfl
  simp [FileInfo.csvTupleRead, FileInfo.csvTuple, e1, e2]

/-! ## Lemmas on the table view -/

theorem runeWidth_bounds (r : Char) : 1 ≤ runeWidth r ∧ runeWidth r ≤ 2 := by
  unfold runeWidth
  split <;> decide

theorem runesWidth_append (xs ys : List Char) :
    runesWidth (xs ++ ys) = runesWidth xs + runesWidth ys := by
  simp [runesWidth]

theorem runesWidth_bounds (xs : List Char) :
    0 ≤ runesWidth xs ∧ runesWidth xs ≤ 2 * xs.length := by
  induction xs with
  | nil => simp [runesWidth]
  | cons x xs ih =>
    have hx := runeWidth_bounds x
    have hc : runesWidth (x :: xs) = runeWidth x + runesWidth xs := by simp [runesWidth]
    have hl : (((x :: xs).length : Nat) : Int) = (xs.length : Int) + 1 := by simp
    rw [hc, hl]
    omega

/-- The first loop of `truncateString` computes the width of the string. -/
theorem totalWidth_eq_runesWidth (s : List Char) : totalWidth s = runesWidth s := by
  have key : ∀ (xs : List Char) (a : Int),
      xs.foldl (fun width r => width + runeWidth r) a = a + runesWidth xs := by
    intro xs
    induction xs with
    | nil => intro a; simp [runesWidth]
    | cons x xs ih =>
      intro a
      simp only [List.foldl_cons]
      rw [ih]
      simp [runesWidth, add_assoc]
  simpa [totalWidth] using key s 0

/-- The second loop of `truncateString` appends to `truncated` the longest
run of the runes ahead that keeps the width within `maxBytes - 3`. -/
theorem truncateRunes_spec (maxBytes : Int) :
    ∀ (runes : List Char) (currentBytes : Int) (truncated : List Char),
      ∃ kept rest, runes = kept ++ rest ∧
        truncateRunes maxBytes runes currentBytes truncated = truncated ++ kept ∧
        (currentBytes ≤ maxBytes - 3 → currentBytes + runesWidth kept ≤ maxBytes - 3) ∧
        (∀ r rest', rest = r :: rest' →
          maxBytes - 3 < currentBytes + runesWidth kept + runeWidth r) := by
  intro runes
  induction runes with
  | nil =>
    intro cur acc
    exact ⟨[], [], rfl, by simp [truncateRunes], by simp [runesWidth], by simp⟩
  | cons r rs ih =>
    intro cur acc
    by_cases h : cur + runeWidth r > maxBytes - 3
    · refine ⟨[], r :: rs, rfl, by simp [truncateRunes, h], by simp [runesWidth], ?_⟩
      intro r' rest' heq
      simp only [List.cons.injEq] at heq
      rw [← heq.1]
      simpa [runesWidth] using h
    · obtain ⟨kept, rest, h1, h2, h3, h4⟩ := ih (cur + runeWidth r) (acc ++ [r])
      have hw : runesWidth (r :: kept) = runeWidth r + runesWidth kept := by
        simp [runesWidth]
      refine ⟨r :: kept, rest, by simp [h1], ?_, ?_, ?_⟩
      · simp only [truncateRunes, if_neg h]
        rw [h2]
        simp
      · intro _
        rw [hw]
        have := h3 (by omega)
        omega
      · intro r' rest' heq
        rw [hw]
        have := h4 r' rest' heq
        omega

/-! ## The claims -/

/-- C1. Every record's `ShouldDelete` is exactly "`Initiated` is strictly
before the cutoff `cfg.ExpirationTime`": this holds of the record the loop body
makes of any upload, an upload initiated exactly at the cutoff is not marked,
and the records a scan of a bucket returns are, one for one and in order, the
listed uploads with that flag. -/
theorem shouldDelete_is_initiated_before_cutoff (fuel : Nat) (c : Client σ) (cfg : Config)
    (bucket : String) (s : σ) (files : List FileInfo)
    (h : (processOneBucket fuel c cfg bucket (World.fresh s)).1 = some (Resp.ok files)) :
    (∀ (w : World σ) (u : MultipartUpload),
      (processUpload c cfg bucket w u).1.ShouldDelete =
          decide (u.Initiated < cfg.ExpirationTime) ∧
        (u.Initiated = cfg.ExpirationTime →
          (processUpload c cfg bucket w u).1.ShouldDelete = false)) ∧
    files.map (fun f => (f.Key, f.ModTime, f.ShouldDelete)) =
      (listedUploads (processOneBucket fuel c cfg bucket (World.fresh s)).2.calls).map
        (fun p => (p.2.Key, p.2.Initiated, decide (p.2.Initiated < cfg.ExpirationTime))) ∧
    ∀ f ∈ files, f.ShouldDelete = decide (f.ModTime < cfg.ExpirationTime) ∧
      (f.ModTime = cfg.ExpirationTime → f.ShouldDelete = false) := by
  have body : ∀ (w : World σ) (u : MultipartUpload),
      (processUpload c cfg bucket w u).1.ShouldDelete =
        decide ((processUpload c cfg bucket w u).1.ModTime < cfg.ExpirationTime) ∧
      (processUpload c cfg bucket w u).1.ModTime = u.Initiated := by
    intro w u
    have := processUpload_outline c cfg bucket w u
    simp only [FileInfo.outline, listedOutline, eligible, Prod.mk.injEq] at this
    rw [this.2.2.2, this.2.2.1]; simp
  refine ⟨?_, ?_, ?_⟩
  · intro w u
    rw [(body w u).1, (body w u).2]
    exact ⟨rfl, fun he => by simp [he]⟩
  · have ho := processPages_outline c cfg bucket fuel none none (World.fresh s) [] files
      (by simp [World.fresh, listedUploads]) h
    have := congrArg (List.map (fun q : String × String × Instant × Bool => q.2)) ho
    simpa [List.map_map, Function.comp_def, FileInfo.outline, listedOutline, eligible,
      processOneBucket] using this
  · have hall := processPages_all c cfg bucket
      (fun f => f.ShouldDelete = decide (f.ModTime < cfg.ExpirationTime))
      (fun w u => (body w u).1) fuel none none (World.fresh s) [] files (by simp) h
    intro f hf
    refine ⟨hall f hf, fun he => ?_⟩
    rw [hall f hf, he]; simp

/-- C1 at the scenario: bucket "media" with deletion requested; Z, started at
the cutoff, is not marked. -/
theorem shouldDelete_is_initiated_before_cutoff_witness :
    (processOneBucket 2 demoClient (demoCfg true) "media" (World.fresh ())).1 =
        some (Resp.ok mediaRecords) ∧
      mediaRecords.map (fun f => (f.Key, f.ModTime, f.ShouldDelete)) =
        [("x.bin", 10 * day, true), ("y.bin", 17 * day, false), ("v.bin", 11 * day, true),
          ("z.bin", 13 * day, false)] ∧
      ∀ f ∈ mediaRecords, f.ShouldDelete = decide (f.ModTime < (demoCfg true).ExpirationTime) ∧
        (f.ModTime = (demoCfg true).ExpirationTime → f.ShouldDelete = false) :=
  ⟨by decide, by decide,
    (shouldDelete_is_initiated_before_cutoff 2 demoClient (demoCfg true) "media" ()
      mediaRecords (by decide)).2.2⟩

/-- C2. `DeleteSuccess` is set (non-nil) exactly when the record is marked
`ShouldDelete` and the run has `cfg.DoDelete`: for the record the loop body
makes of any upload, for every record a scan of a bucket returns, and for
every record `Run` collects. -/
theorem deleteSuccess_set_iff_eligible_and_requested (fuel : Nat) (c : Client σ)
    (cfg : Config) (w : World σ) :
    (∀ (bucket : String) (w0 : World σ) (u : MultipartUpload),
      (processUpload c cfg bucket w0 u).1.DeleteSuccess ≠ none ↔
        ((processUpload c cfg bucket w0 u).1.ShouldDelete = true ∧ cfg.DoDelete = true)) ∧
    (∀ (bucket : String) (files : List FileInfo),
      (processOneBucket fuel c cfg bucket w).1 = some (Resp.ok files) →
      ∀ f ∈ files, f.DeleteSuccess ≠ none ↔ (f.ShouldDelete = true ∧ cfg.DoDelete = true)) ∧
    (∀ (all : List FileInfo) (printed : List String),
      (Run fuel c cfg w).1 = some (Resp.ok all, printed) →
      ∀ f ∈ all, f.DeleteSuccess ≠ none ↔ (f.ShouldDelete = true ∧ cfg.DoDelete = true)) := by
  have body : ∀ (bucket : String) (w0 : World σ) (u : MultipartUpload),
      (processUpload c cfg bucket w0 u).1.DeleteSuccess ≠ none ↔
        ((processUpload c cfg bucket w0 u).1.ShouldDelete = true ∧ cfg.DoDelete = true) := by
    intro bucket w0 u
    unfold processUpload
    by_cases h : (decide (u.Initiated < cfg.ExpirationTime) && cfg.DoDelete) = true
    · have h2 := h
      simp only [Bool.and_eq_true, decide_eq_true_eq] at h2
      simp [h, h2.1, h2.2]
    · have h2 := h
      simp only [Bool.and_eq_true, decide_eq_true_eq, not_and] at h2
      simp only [h]
      simpa using h2
  refine ⟨body, ?_, ?_⟩
  · intro bucket files h
    exact processPages_all c cfg bucket _ (body bucket) fuel none none w [] files (by simp) h
  · intro all printed h
    exact Run_all fuel c cfg _ body w all printed h

/-- C2 at the scenario: a run over all buckets with deletion requested. -/
theorem deleteSuccess_set_iff_eligible_and_requested_witness :
    (Run 2 demoClient (demoCfg true) (World.fresh ())).1 =
        some (Resp.ok mediaRecords, demoPrinted) ∧
      mediaRecords.map (fun f => (f.ShouldDelete, f.DeleteSuccess)) =
        [(true, some true), (false, none), (true, some false), (false, none)] ∧
      ∀ f ∈ mediaRecords,
        f.DeleteSuccess ≠ none ↔ (f.ShouldDelete = true ∧ (demoCfg true).DoDelete = true) :=
  ⟨by decide, by decide,
    (deleteSuccess_set_iff_eligible_and_requested 2 demoClient (demoCfg true)
      (World.fresh ())).2.2 mediaRecords demoPrinted (by decide)⟩

/-- C3. Whatever the storage client does, the abort calls of a run are, in
order, exactly one per listed upload initiated strictly before the cutoff,
with the bucket of the listing and the key and upload id of the upload, when
`cfg.DoDelete`; and there is no abort call at all when not `cfg.DoDelete`. This
holds of the calls issued up to any point (`fuel`) of the run. In the scenario
(cutoff at 7 days ago, X 10 days old, Y 3 days old) the run issues one abort,
for X, with deletion requested and none without. -/
theorem abort_calls_are_the_eligible_listed_uploads (fuel : Nat) (c : Client σ) (cfg : Config)
    (s : σ) :
    abortCalls (Run fuel c cfg (World.fresh s)).2.calls =
        (if cfg.DoDelete then
          ((listedUploads (Run fuel c cfg (World.fresh s)).2.calls).filter
            (fun p => decide (p.2.Initiated < cfg.ExpirationTime))).map
            (fun p => (p.1, p.2.Key, p.2.UploadId))
        else []) ∧
      abortCalls (Run 1 twoUploadsClient (demoCfg true) (World.fresh ())).2.calls =
        [("media", "x.bin", "u-x")] ∧
      abortCalls (Run 1 twoUploadsClient (demoCfg false) (World.fresh ())).2.calls = [] := by
  refine ⟨?_, by decide, by decide⟩
  have h := Run_sweep fuel c cfg (World.fresh s)
    (by simp [SweepExact, World.fresh, abortCalls, listedUploads, eligibleAborts])
  simpa [SweepExact, eligibleAborts, eligible] using h

/-- C4. Pagination completeness. Let the client answer the list calls of a
scan with the `N ≥ 1` pages `all`, every page but the last reporting
`IsTruncated = true` (the last reports false or nothing), and behave in any
way in its other calls. Then `processOneBucket` returns (for every bound of at
least `N` pages) one record per upload of all the pages, in page order and
then within-page order, and it has issued exactly `N` list calls: the first
without markers, each later one with the `NextKeyMarker` and
`NextUploadIdMarker` of the page before. -/
theorem pagination_consumes_all_pages (base : Client σ) (cfg : Config) (bucket : String)
    (s : σ) (all : List ListMultipartUploadsOutput) (fuel : Nat) (hne : all ≠ [])
    (hmore : ∀ p ∈ all.dropLast, p.IsTruncated = some true)
    (hlast : (all.getLast hne).IsTruncated ≠ some true) (hfuel : all.length ≤ fuel) :
    ∃ files,
      (processOneBucket fuel base.withPages cfg bucket (World.fresh (all, s))).1 =
        some (Resp.ok files) ∧
      files.map (fun f => (f.Bucket, f.Key, f.ModTime)) =
        (uploadsOf all).map (fun u => (bucket, u.Key, u.Initiated)) ∧
      files.length = (uploadsOf all).length ∧
      listCalls (processOneBucket fuel base.withPages cfg bucket (World.fresh (all, s))).2.calls =
        (bucket, none, none) ::
          all.dropLast.map (fun p => (bucket, p.NextKeyMarker, p.NextUploadIdMarker)) ∧
      (listCalls
        (processOneBucket fuel base.withPages cfg bucket (World.fresh (all, s))).2.calls).length =
        all.length := by
  have hsplit : all.dropLast ++ [all.getLast hne] = all := List.dropLast_append_getLast hne
  have hlen : all.dropLast.length + 1 = all.length := by
    have := congrArg List.length hsplit
    simpa using this
  obtain ⟨files, h1, h2, h3⟩ := processPages_withPages base cfg bucket (all.getLast hne) hlast
    all.dropLast fuel none none (World.fresh (all, s)) []
    (by simp [World.fresh, hsplit]) hmore (by omega)
  rw [hsplit] at h2
  have h2a : files.map (fun f => (f.Bucket, f.Key, f.ModTime)) =
      (uploadsOf all).map (fun u => (bucket, u.Key, u.Initiated)) := by
    have := congrArg
      (List.map (fun q : String × String × Instant × Bool => (q.1, q.2.1, q.2.2.1))) h2
    simpa [List.map_map, Function.comp_def, FileInfo.outline, listedOutline] using this
  have h3a : listCalls
      (processOneBucket fuel base.withPages cfg bucket (World.fresh (all, s))).2.calls =
      (bucket, none, none) ::
        all.dropLast.map (fun p => (bucket, p.NextKeyMarker, p.NextUploadIdMarker)) := by
    simpa [processOneBucket, World.fresh, listCalls] using h3
  refine ⟨files, h1, h2a, ?_, h3a, ?_⟩
  · simpa using congrArg List.length h2a
  · rw [h3a]; simpa using hlen

/-- C4 at the scenario: the two pages of bucket "media". -/
theorem pagination_consumes_all_pages_witness :
    (processOneBucket 2 demoClient.withPages (demoCfg true) "media"
        (World.fresh ([mediaPage1, mediaPage2], ()))).1 = some (Resp.ok mediaRecords) ∧
      ∃ files,
        (processOneBucket 2 demoClient.withPages (demoCfg true) "media"
          (World.fresh ([mediaPage1, mediaPage2], ()))).1 = some (Resp.ok files) ∧
        files.map (fun f => (f.Bucket, f.Key, f.ModTime)) =
          (uploadsOf [mediaPage1, mediaPage2]).map (fun u => ("media", u.Key, u.Initiated)) ∧
        files.length = (uploadsOf [mediaPage1, mediaPage2]).length ∧
        listCalls (processOneBucket 2 demoClient.withPages (demoCfg true) "media"
          (World.fresh ([mediaPage1, mediaPage2], ()))).2.calls =
          ("media", none, none) ::
            [mediaPage1, mediaPage2].dropLast.map
              (fun p => ("media", p.NextKeyMarker, p.NextUploadIdMarker)) ∧
        (listCalls (processOneBucket 2 demoClient.withPages (demoCfg true) "media"
          (World.fresh ([mediaPage1, mediaPage2], ()))).2.calls).length = 2 :=
  ⟨by decide,
    pagination_consumes_all_pages demoClient (demoCfg true) "media" ()
      [mediaPage1, mediaPage2] 2 (by decide) (by decide) (by decide) (by decide)⟩

/-- C5. Bucket isolation. Let `Run` process the buckets `buckets` (the one of
the configuration, or all those the client lists), each scan finishing within
the bound. Then the collection of `Run` is the concatenation, in bucket order,
of the records of the scans that succeeded, and the error lines are one per
scan that failed: a failed scan contributes no record and exactly one line,
and these lines are, in order, one per failed list-multipart-uploads call,
whether it was the first of its bucket or a later one. On a client without
state every bucket contributes exactly the records of its scan alone, so a
failing bucket changes nothing in what the others contribute. -/
theorem bucket_isolation (fuel : Nat) (c : Client σ) (cfg : Config) (w w1 : World σ)
    (buckets : List String)
    (hres : resolveBuckets c cfg w = (Resp.ok buckets, w1))
    (hfin : ∀ r ∈ bucketScans fuel c cfg buckets w1, r.2 ≠ none) :
    (Run fuel c cfg w).1 =
        some (Resp.ok ((bucketScans fuel c cfg buckets w1).flatMap scanRecords),
          (bucketScans fuel c cfg buckets w1).flatMap scanErrorLines) ∧
      (∀ r ∈ bucketScans fuel c cfg buckets w1, ∀ e, r.2 = some (Resp.err e) →
        scanRecords r = [] ∧ scanErrorLines r = [bucketErrorLine r.1 e]) ∧
      (∀ r ∈ bucketScans fuel c cfg buckets w1, ∀ files, r.2 = some (Resp.ok files) →
        scanRecords r = files ∧ scanErrorLines r = []) ∧
      (∃ failed, listErrors (Run fuel c cfg w).2.calls = listErrors w.calls ++ failed ∧
        (bucketScans fuel c cfg buckets w1).flatMap scanErrorLines =
          failed.map (fun p => bucketErrorLine p.1 (listErrorf p.1 p.2))) ∧
      (∀ (c0 : Client Unit) (bs : List String) (w0 : World Unit),
        (∀ b ∈ bs, (processOneBucket fuel c0 cfg b (World.fresh ())).1 ≠ none) →
        (runBuckets fuel c0 cfg bs w0 [] []).1 =
          some (bs.flatMap
              (fun b => scanRecords (b, (processOneBucket fuel c0 cfg b (World.fresh ())).1)),
            bs.flatMap
              (fun b =>
                scanErrorLines (b, (processOneBucket fuel c0 cfg b (World.fresh ())).1)))) := by
  have hb1 : (resolveBuckets c cfg w).1 = Resp.ok buckets := by rw [hres]
  have hb2 : (resolveBuckets c cfg w).2 = w1 := by rw [hres]
  have hrun := runBuckets_eq_scans fuel c cfg buckets w1 [] [] hfin
  simp only [List.nil_append] at hrun
  have hR1 : (Run fuel c cfg w).1 =
      some (Resp.ok ((bucketScans fuel c cfg buckets w1).flatMap scanRecords),
        (bucketScans fuel c cfg buckets w1).flatMap scanErrorLines) := by
    unfold Run
    simp only [hb1, hb2, hrun, Option.map_some']
  have hR2 : (Run fuel c cfg w).2 = (runBuckets fuel c cfg buckets w1 [] []).2 := by
    unfold Run
    simp only [hb1, hb2]
  refine ⟨hR1, ?_, ?_, ?_, ?_⟩
  · intro r _ e he
    obtain ⟨b, o⟩ := r
    simp only at he
    subst he
    exact ⟨rfl, rfl⟩
  · intro r _ files hf
    obtain ⟨b, o⟩ := r
    simp only at hf
    subst hf
    exact ⟨rfl, rfl⟩
  · obtain ⟨failed, h1, h2⟩ := runBuckets_printed fuel c cfg buckets w1 [] [] _ hrun
    refine ⟨failed, ?_, by simpa using h2⟩
    rw [hR2, h1, ← hb2, resolveBuckets_listErrors]
  · intro c0 bs w0 hfin0
    have hs := bucketScans_stateless fuel c0 cfg bs w0
    have := runBuckets_eq_scans fuel c0 cfg bs w0 [] []
      (by
        rw [hs]
        intro r hr
        obtain ⟨b, hb, rfl⟩ := List.mem_map.1 hr
        exact hfin0 b hb)
    rw [this, hs]
    simp [List.flatMap, List.map_map, Function.comp_def]

/-- C5 at the scenario: "vault" fails on its first page, "media" succeeds,
"locked" fails on its second page; the collection is exactly the records of
"media" and there are two error lines, for "vault" and for "locked". -/
theorem bucket_isolation_witness :
    resolveBuckets demoClient (demoCfg true) (World.fresh ()) =
        (Resp.ok ["vault", "media", "locked"], demoListed) ∧
      (Run 2 demoClient (demoCfg true) (World.fresh ())).1 =
        some (Resp.ok mediaRecords, demoPrinted) ∧
      (Run 2 demoClient (demoCfg true) (World.fresh ())).1 =
        some (Resp.ok ((bucketScans 2 demoClient (demoCfg true) ["vault", "media", "locked"]
            demoListed).flatMap scanRecords),
          (bucketScans 2 demoClient (demoCfg true) ["vault", "media", "locked"]
            demoListed).flatMap scanErrorLines) :=
  ⟨by decide, by decide,
    (bucket_isolation 2 demoClient (demoCfg true) (World.fresh ()) demoListed
      ["vault", "media", "locked"] (by decide) (by decide)).1⟩

/-- C6, as the specification states it, fails: the sizes of the parts
`2^63 - 1` and `1` add up to `2^63`, and the record the scan returns for their
upload has `Size = -2^63`, not that sum. -/
theorem part_sizes_beyond_int64_wrap :
    (hugePartsClient.ListParts () "media" uploadX.Key uploadX.UploadId).1 = Resp.ok hugeParts ∧
      partsTotal hugeParts = 9223372036854775808 ∧
      (processOneBucket 1 hugePartsClient (demoCfg false) "media" (World.fresh ())).1 =
        some (Resp.ok [{ Bucket := "media", Key := "x.bin", Size := -9223372036854775808,
                         ModTime := 10 * day, ShouldDelete := true, DeleteSuccess := none }]) ∧
      (processUpload hugePartsClient (demoCfg false) "media" (World.fresh ()) uploadX).1.Size ≠
        partsTotal hugeParts := by
  decide

/-- C6, amended. The `Size` of the record of an upload is the sum of the sizes
of the parts its parts lookup returned, a part without size counting 0, added
up in `int64`: the exact sum reduced to 64 bits, hence the exact sum whenever
that is an `int64`, as for every listing of parts of sizes between 0 and a
bound whose number times the bound is below `2^63` (1000 parts of 5 GiB, the
most a listing of S3 holds, are far below); it is 0 when the parts lookup
fails. This holds of the records a scan returns: they show, one for one and in
order, the bucket, the key and that size for the parts lookups the scan
issued, and these are the lookups of the uploads the scan was listed. What the
parts lookups respond changes nothing else: two clients that differ only there
make `processOneBucket` return alike (the same error, or the same records up
to `Size`), so a failed parts lookup neither fails the scan nor drops a
record. -/
theorem part_size_aggregation_in_int64 (c : Client σ) (cfg : Config) (bucket : String) :
    (∀ (w : World σ) (u : MultipartUpload) (parts : List Part),
      (c.ListParts w.client bucket u.Key u.UploadId).1 = Resp.ok parts →
      (processUpload c cfg bucket w u).1.Size = wrapInt64 (partsTotal parts) ∧
        (-2 ^ 63 ≤ partsTotal parts → partsTotal parts < 2 ^ 63 →
          (processUpload c cfg bucket w u).1.Size = partsTotal parts) ∧
        (∀ bound : Int, 0 ≤ bound →
          (∀ p ∈ parts, ∀ n, p.Size = some n → 0 ≤ n ∧ n ≤ bound) →
          parts.length * bound < 2 ^ 63 →
          (processUpload c cfg bucket w u).1.Size = partsTotal parts)) ∧
    (∀ (w : World σ) (u : MultipartUpload) (e : String),
      (c.ListParts w.client bucket u.Key u.UploadId).1 = Resp.err e →
      (processUpload c cfg bucket w u).1.Size = 0) ∧
    (∀ (fuel : Nat) (w : World σ) (files : List FileInfo),
      (processOneBucket fuel c cfg bucket w).1 = some (Resp.ok files) →
      (partsLookups (processOneBucket fuel c cfg bucket w).2.calls).map lookupShown =
        (partsLookups w.calls).map lookupShown ++ files.map FileInfo.sized) ∧
    (∀ (fuel : Nat) (w : World σ),
      (partsLookups w.calls).map (fun p => p.1) = (listedUploads w.calls).map listedId →
      (partsLookups (processOneBucket fuel c cfg bucket w).2.calls).map (fun p => p.1) =
        (listedUploads (processOneBucket fuel c cfg bucket w).2.calls).map listedId) ∧
    (∀ (c' : Client σ), SameButParts c c' → ∀ (fuel : Nat) (w : World σ),
      viewed FileInfo.withoutSize (processOneBucket fuel c cfg bucket w).1 =
        viewed FileInfo.withoutSize (processOneBucket fuel c' cfg bucket w).1) := by
  have hsize : ∀ (w : World σ) (u : MultipartUpload),
      (processUpload c cfg bucket w u).1.Size =
        match (c.ListParts w.client bucket u.Key u.UploadId).1 with
        | Resp.ok parts => sumPartSizes parts
        | Resp.err _ => 0 := by
    intro w u
    unfold processUpload
    by_cases hd : (decide (u.Initiated < cfg.ExpirationTime) && cfg.DoDelete) = true
    · simp [hd]
    · simp [hd]
  refine ⟨?_, ?_, ?_, ?_, ?_⟩
  · intro w u parts hp
    have h1 : (processUpload c cfg bucket w u).1.Size = wrapInt64 (partsTotal parts) := by
      rw [hsize, hp]; exact sumPartSizes_eq_wrap parts
    refine ⟨h1, fun hlo hhi => by rw [h1, wrapInt64_of_fits _ hlo hhi], ?_⟩
    intro bound hb hsizes hfit
    obtain ⟨h0, hle⟩ := partsTotal_bounds bound hb parts hsizes
    rw [h1, wrapInt64_of_fits _ (by omega) (by omega)]
  · intro w u e he
    rw [hsize, he]
  · intro fuel w files h
    exact processPages_sized c cfg bucket fuel none none w files h
  · intro fuel w h
    exact processPages_lookups c cfg bucket fuel none none w [] h
  · intro c' hsame fuel w
    obtain ⟨hlist, habort, hparts⟩ := hsame
    refine (processPages_viewed c c' cfg bucket FileInfo.withoutSize hlist ?_ fuel none none
      w w [] [] rfl rfl).1
    intro w1 w2 u hw
    unfold processUpload
    by_cases hd : (decide (u.Initiated < cfg.ExpirationTime) && cfg.DoDelete) = true
    · simp [hd, abortMultipartUpload, habort, hparts, hw, FileInfo.withoutSize]
    · simp [hd, hparts, hw, FileInfo.withoutSize]

/-- C6 at the scenario: X has parts of 100, 250 and 7 bytes, a part without
size counts 0, the parts lookup of Y fails; the four records the scan of
bucket "media" returns show the sizes 357, 0, 5 and 0 of its four parts
lookups, which are those of the four uploads listed. -/
theorem part_size_aggregation_in_int64_witness :
    (demoClient.ListParts () "media" "x.bin" "u-x").1 =
        Resp.ok [{ Size := some 100 }, { Size := some 250 }, { Size := some 7 }] ∧
      partsTotal [{ Size := some 100 }, { Size := some 250 }, { Size := some 7 }] = 357 ∧
      partsTotal [{ Size := none }, { Size := some 5 }] = 5 ∧
      (processUpload demoClient (demoCfg true) "media" (World.fresh ()) uploadX).1.Size =
        partsTotal [{ Size := some 100 }, { Size := some 250 }, { Size := some 7 }] ∧
      (demoClient.ListParts () "media" "y.bin" "u-y").1 = Resp.err "InternalError" ∧
      (processUpload demoClient (demoCfg true) "media" (World.fresh ()) uploadY).1.Size = 0 ∧
      (processOneBucket 2 demoClient (demoCfg true) "media" (World.fresh ())).1 =
        some (Resp.ok mediaRecords) ∧
      mediaRecords.map FileInfo.sized =
        [("media", "x.bin", 357), ("media", "y.bin", 0), ("media", "v.bin", 5),
          ("media", "z.bin", 0)] ∧
      (partsLookups
          (processOneBucket 2 demoClient (demoCfg true) "media" (World.fresh ())).2.calls).map
          lookupShown =
        (partsLookups (World.fresh ()).calls).map lookupShown ++
          mediaRecords.map FileInfo.sized ∧
      (partsLookups
          (processOneBucket 2 demoClient (demoCfg true) "media" (World.fresh ())).2.calls).map
          (fun p => p.1) =
        (listedUploads
          (processOneBucket 2 demoClient (demoCfg true) "media" (World.fresh ())).2.calls).map
          listedId ∧
      (processOneBucket 2 demoClient.partsFail (demoCfg true) "media" (World.fresh ())).1 =
        some (Resp.ok (mediaRecords.map FileInfo.withoutSize)) ∧
      viewed FileInfo.withoutSize
          (processOneBucket 2 demoClient (demoCfg true) "media" (World.fresh ())).1 =
        viewed FileInfo.withoutSize
          (processOneBucket 2 demoClient.partsFail (demoCfg true) "media" (World.fresh ())).1 :=
  ⟨by decide, by decide, by decide,
    ((part_size_aggregation_in_int64 demoClient (demoCfg true) "media").1 (World.fresh ())
      uploadX [{ Size := some 100 }, { Size := some 250 }, { Size := some 7 }] (by decide)).2.2
      5368709120 (by decide) (by decide) (by decide),
    by decide,
    (part_size_aggregation_in_int64 demoClient (demoCfg true) "media").2.1 (World.fresh ())
      uploadY "InternalError" (by decide),
    by decide, by decide,
    (part_size_aggregation_in_int64 demoClient (demoCfg true) "media").2.2.1 2 (World.fresh ())
      mediaRecords (by decide),
    (part_size_aggregation_in_int64 demoClient (demoCfg true) "media").2.2.2.1 2
      (World.fresh ()) (by decide),
    by decide,
    (part_size_aggregation_in_int64 demoClient (demoCfg true) "media").2.2.2.2
      demoClient.partsFail ⟨rfl, rfl, fun _ _ _ _ => rfl⟩ 2 (World.fresh ())⟩

/-- C7, as the specification states it, fails: the age specification `0d` is
not a positive integer with a unit, and `ParseTime` accepts it (the cutoff is
then the current instant); and `9223372036854775808d` is a positive integer
with a unit, and `ParseTime` returns an error for it. -/
theorem zero_count_age_spec_is_accepted :
    ((Config.ofTime "0d").ParseTime (20 * day) utcAddDate =
        Resp.ok { Config.ofTime "0d" with ExpirationTime := 20 * day } ∧
      ¬ PositiveAgeSpec "0d") ∧
    (PositiveAgeSpec "9223372036854775808d" ∧
      (Config.ofTime "9223372036854775808d").ParseTime (20 * day) utcAddDate =
        Resp.err (invalidValueError "9223372036854775808")) := by
  refine ⟨⟨by decide, ?_⟩, ⟨?_, by decide⟩⟩
  · rintro ⟨digits, unit, hs, _, _, hpos, _⟩
    have hd : digits = ['0'] := by
      have := congrArg List.dropLast hs
      simpa using this.symm
    rw [hd] at hpos
    exact absurd hpos (by decide)
  · exact ⟨"9223372036854775808".toList, 'd', by decide, by decide, by decide, by decide,
      Or.inl rfl⟩

/-- C7, amended. `ParseTime` succeeds exactly on the strings made of one or
more ASCII decimal digits, writing a number of at most `2^63 - 1` (the range
of `int`), followed by the unit `d` or `h`; a count of zero is accepted. Every
other string makes it return an error: among them the empty string, a missing
or unknown unit, a sign, white space, other characters than digits, and a
number beyond the range of `int`. -/
theorem parseTime_succeeds_iff_digits_and_unit (c : Config) (now : Instant)
    (addDate : Instant → Int → Instant) :
    ((c.ParseTime now addDate).isOk = true ↔ AcceptedAgeSpec c.Time) ∧
      ((c.ParseTime now addDate).isOk = false ↔ ∃ e, c.ParseTime now addDate = Resp.err e) ∧
      (∀ t ∈ ["7d", "72h", "0d", "0h", "007d", "9223372036854775807d"],
        ((Config.ofTime t).ParseTime 0 utcAddDate).isOk = true) ∧
      (∀ t ∈ ["", "7", "d", "h", "7w", "7D", "-7d", "+7d", " 7d", "7d ", "7 d", "7d\n",
          "7.5d", "x7d", "7dd", "7hd", "٧d", "9223372036854775808d"],
        ((Config.ofTime t).ParseTime 0 utcAddDate).isOk = false) := by
  refine ⟨?_, ?_, by decide, by decide⟩
  · rw [← parseTime_ok_iff c now addDate]
    cases h : c.ParseTime now addDate with
    | ok c' => simp [Resp.isOk]
    | err e => simp [Resp.isOk]
  · cases h : c.ParseTime now addDate with
    | ok c' => simp [Resp.isOk]
    | err e => simp [Resp.isOk]

/-- C8, the defect. For `2562048h` (2562048 hours in nanoseconds exceed the
`int64` of `time.Duration`) the product `-time.Duration(value) * time.Hour`
wraps to a positive duration and `ParseTime` sets the cutoff about 292 years
after `now`, not 2562048 hours before it. For the counts whose hours fit
(`N ≤ 2562047`) the cutoff is exactly `now` minus `N` hours, hence not later
than `now`; for days it is `now.AddDate(0, 0, -N)` for every accepted `N`. -/
theorem hours_cutoff_wraps_into_the_future :
    (∀ (now : Instant) (addDate : Instant → Int → Instant),
      (Config.ofTime "2562048h").ParseTime now addDate =
          Resp.ok { Config.ofTime "2562048h" with ExpirationTime := now + 9223371273709551616 } ∧
        now < now + 9223371273709551616 ∧ now + 9223371273709551616 ≠ now - 2562048 * hour) ∧
    (∀ (now : Instant) (addDate : Instant → Int → Instant) (digits : List Char),
      digits ≠ [] → (∀ ch ∈ digits, ch.isDigit = true) → decimalValue digits ≤ 2562047 →
      (Config.ofTime (String.mk (digits ++ ['h']))).ParseTime now addDate =
          Resp.ok { Config.ofTime (String.mk (digits ++ ['h'])) with
                    ExpirationTime := now - decimalValue digits * hour } ∧
        now - decimalValue digits * hour ≤ now) ∧
    (∀ (now : Instant) (addDate : Instant → Int → Instant) (digits : List Char),
      digits ≠ [] → (∀ ch ∈ digits, ch.isDigit = true) → decimalValue digits ≤ 2 ^ 63 - 1 →
      (Config.ofTime (String.mk (digits ++ ['d']))).ParseTime now addDate =
        Resp.ok { Config.ofTime (String.mk (digits ++ ['d'])) with
                  ExpirationTime := addDate now (-(decimalValue digits : Int)) }) := by
  refine ⟨?_, ?_, ?_⟩
  · intro now addDate
    have h1 : findStringSubmatch (Config.ofTime "2562048h").Time.toList =
        some ("2562048".toList, 'h') := by decide
    have h2 : atoi "2562048".toList = some 2562048 := by decide
    have h3 : wrapInt64 (wrapInt64 (-2562048) * hour) = 9223371273709551616 := by decide
    have h4 : ∀ n : Int, n < n + 9223371273709551616 ∧
        n + 9223371273709551616 ≠ n - 2562048 * 3600000000000 := by
      intro n; omega
    refine ⟨?_, (h4 now).1, (h4 now).2⟩
    unfold Config.ParseTime
    rw [h1]
    simp only [h2, h3, ↓reduceIte]
    rfl
  · intro now addDate digits hne hdig hv
    have hm : findStringSubmatch (Config.ofTime (String.mk (digits ++ ['h']))).Time.toList =
        some (digits, 'h') :=
      (findStringSubmatch_eq_some_iff _ _ _).2 ⟨rfl, hne, hdig, Or.inr rfl⟩
    have hv2 : decimalValue digits ≤ 2 ^ 63 - 1 := le_trans hv (by decide)
    have ha : atoi digits = some (decimalValue digits : Int) := by
      unfold atoi
      rw [if_pos hv2]
    have hw : ∀ a : Int, 0 ≤ a → a ≤ 2562047 →
        (a + wrapInt64 (wrapInt64 (-a) * hour) = a - a * hour) ∧
          wrapInt64 (wrapInt64 (-a) * hour) = -(a * hour) ∧ (0 : Int) ≤ a * hour := by
      intro a h0 h1
      unfold wrapInt64 hour
      omega
    have hw1 := hw (decimalValue digits) (by omega) (by omega)
    have hle : ∀ n m : Int, 0 ≤ m → n - m ≤ n := by intro n m hm; omega
    refine ⟨?_, hle _ _ hw1.2.2⟩
    unfold Config.ParseTime
    rw [hm]
    simp only [ha, hw1.2.1, ↓reduceIte]
    rfl
  · intro now addDate digits hne hdig hv
    have hm : findStringSubmatch (Config.ofTime (String.mk (digits ++ ['d']))).Time.toList =
        some (digits, 'd') :=
      (findStringSubmatch_eq_some_iff _ _ _).2 ⟨rfl, hne, hdig, Or.inl rfl⟩
    have ha : atoi digits = some (decimalValue digits : Int) := by
      unfold atoi
      rw [if_pos hv]
    have hw : wrapInt64 (-(decimalValue digits : Int)) = -(decimalValue digits : Int) := by
      unfold wrapInt64
      omega
    unfold Config.ParseTime
    rw [hm]
    simp only [ha, hw, ↓reduceIte]

/-- C8 at concrete inputs: `72h` gives `now` minus 72 hours, `7d` gives `now`
minus 7 days (where the clock does not change), `2562048h` a cutoff after
`now`. -/
theorem hours_cutoff_wraps_into_the_future_witness :
    (Config.ofTime "72h").ParseTime (20 * day) utcAddDate =
        Resp.ok { Config.ofTime "72h" with ExpirationTime := 20 * day - 72 * hour } ∧
      (Config.ofTime "7d").ParseTime (20 * day) utcAddDate =
        Resp.ok { Config.ofTime "7d" with ExpirationTime := 13 * day } ∧
      (Config.ofTime "2562048h").ParseTime (20 * day) utcAddDate =
        Resp.ok { Config.ofTime "2562048h" with
                  ExpirationTime := 20 * day + 9223371273709551616 } :=
  ⟨(hours_cutoff_wraps_into_the_future.2.1 (20 * day) utcAddDate ['7', '2']
      (by decide) (by decide) (by decide)).1,
    by decide,
    (hours_cutoff_wraps_into_the_future.1 (20 * day) utcAddDate).1⟩

/-- C9, as the specification states it, fails: a key with a carriage return
and line feed, `line1\r\nline2`, is written as it is inside double quotes, and
`ReadAll` of `encoding/csv` reads the key `line1\nline2` back, so the tuple
read back is not the tuple of the record. -/
theorem crlf_key_is_read_back_with_lf :
    outputCSV demoRfc3339 trickyRecords =
        "Bucket,Key,Size,ModTime,ShouldDelete,DeleteSuccess\n" ++
        "\"a,b\",\"say \"\"hi\"\"\",357,864000Z,true,true\n" ++
        "\" lead\",\"line1\r\nline2\",-5,1468800Z,false,not_executed\n" ++
        ",\"\\.\",0,950400Z,true,false\n" ∧
      readReport (outputCSV demoRfc3339 trickyRecords) =
        some (csvHeader,
          [("a,b", "say \"hi\"", 357, true, some true),
            (" lead", "line1\nline2", -5, false, none), ("", "\\.", 0, true, some false)]) ∧
      trickyRecords.map FileInfo.csvTuple =
        [("a,b", "say \"hi\"", 357, true, some true),
          (" lead", "line1\r\nline2", -5, false, none), ("", "\\.", 0, true, some false)] ∧
      readReport (outputCSV demoRfc3339 trickyRecords) ≠
        some (csvHeader, trickyRecords.map FileInfo.csvTuple) := by
  rw [readReport_outputCSV]
  have hread : trickyRecords.map FileInfo.csvTupleRead =
      [("a,b", "say \"hi\"", 357, true, some true),
        (" lead", "line1\nline2", -5, false, none), ("", "\\.", 0, true, some false)] := by
    decide
  have hne : trickyRecords.map FileInfo.csvTupleRead ≠ trickyRecords.map FileInfo.csvTuple := by
    decide
  refine ⟨by decide, by rw [hread], by decide, fun h => hne ?_⟩
  exact (Prod.mk.inj (Option.some.inj h)).2

/-- C9, amended. The text `outputCSV` writes is the header line
`Bucket,Key,Size,ModTime,ShouldDelete,DeleteSuccess` followed by one row per
record, in order; the last field of a row is the literal `not_executed`,
`true` or `false` for a `DeleteSuccess` that is nil, true or false. Read back
with `ReadAll` of `encoding/csv` the text gives the header and the rows, every
field without the carriage returns that stood right before a line feed, and
decoding the rows gives the (bucket, key, size, shouldDelete, deleteSuccess)
of every record with bucket and key so changed, however the instants are
rendered. So the tuples come back the same for all records whose buckets and
keys have no carriage return right before a line feed, commas, double quotes,
line feeds and other carriage returns included. -/
theorem csv_round_trip_up_to_crlf (rfc3339 : Instant → String) (files : List FileInfo) :
    (outputCSV rfc3339 files).toList =
        "Bucket,Key,Size,ModTime,ShouldDelete,DeleteSuccess\n".toList ++
          writeRows rfc3339 files ∧
      ReadAll (outputCSV rfc3339 files) =
        some (csvHeader :: files.map (fun f => (csvRow rfc3339 f).map crlfAsLf)) ∧
      (∀ f : FileInfo, (csvRow rfc3339 f).length = 6 ∧
        (csvRow rfc3339 f).getLast? =
          some (match f.DeleteSuccess with
                | none => "not_executed"
                | some true => "true"
                | some false => "false")) ∧
      readReport (outputCSV rfc3339 files) =
        some (csvHeader, files.map FileInfo.csvTupleRead) ∧
      ((∀ f ∈ files, hasCRLF f.Bucket.toList = false ∧ hasCRLF f.Key.toList = false) →
        readReport (outputCSV rfc3339 files) = some (csvHeader, files.map FileInfo.csvTuple)) ∧
      (∀ s ∈ ["a,b", "say \"hi\"", "line1\nline2", "line1\rline2", "\n\r", "\r", "\n",
          " lead", "", "\\."], hasCRLF s.toList = false ∧ crlfAsLf s = s) ∧
      (hasCRLF "line1\r\nline2".toList = true ∧ crlfAsLf "line1\r\nline2" = "line1\nline2" ∧
        crlfAsLf "a\r\r\nb" = "a\r\nb") := by
  refine ⟨rfl, ReadAll_outputCSV rfc3339 files, ?_, readReport_outputCSV rfc3339 files, ?_,
    by decide, by decide⟩
  · intro f
    exact ⟨rfl, rfl⟩
  · intro h
    rw [readReport_outputCSV]
    have : files.map FileInfo.csvTupleRead = files.map FileInfo.csvTuple :=
      List.map_congr_left (fun f hf => csvTupleRead_eq f (h f hf).1 (h f hf).2)
    rw [this]

/-- C9 at records whose keys and buckets hold a comma, double quotes, line
feeds, carriage returns not before a line feed, a leading blank: the report
reads back as their tuples. -/
theorem csv_round_trip_up_to_crlf_witness :
    (∀ f ∈ quotedRecords, hasCRLF f.Bucket.toList = false ∧ hasCRLF f.Key.toList = false) ∧
      outputCSV demoRfc3339 quotedRecords =
        "Bucket,Key,Size,ModTime,ShouldDelete,DeleteSuccess\n" ++
        "\"a,b\",\"say \"\"hi\"\"\",357,864000Z,true,true\n" ++
        "\" lead\",\"line1\nline2\rline3\n\r\",-5,1468800Z,false,not_executed\n" ++
        ",\"\\.\",0,950400Z,true,false\n" ∧
      readReport (outputCSV demoRfc3339 quotedRecords) =
        some (csvHeader, quotedRecords.map FileInfo.csvTuple) :=
  ⟨by decide, by decide,
    (csv_round_trip_up_to_crlf demoRfc3339 quotedRecords).2.2.2.2.1 (by decide)⟩

/-- C10. Abort failure is recovered. With `cfg.DoDelete`, the record of an
upload initiated before the cutoff carries `DeleteSuccess = true` when its
abort call succeeds and `DeleteSuccess = false` when it fails. A failed abort
changes nothing else: `processOneBucket` returns exactly what it returns on
the client on which every abort succeeds (same error or same records, in the
same order, the client left in the same state), but for the booleans of
`DeleteSuccess`; and when it returns an error, a list call has failed. The
booleans of the records a scan returns are those of its abort calls: the
records with `DeleteSuccess` set are the marked ones when deletion is
requested, and they carry, one for one and in order, bucket, key and outcome
(`err == nil`) of the abort calls the scan issued, which are the abort calls
of the eligible uploads it was listed. -/
theorem abort_failure_is_recovered (c : Client σ) (cfg : Config) (bucket : String) :
    (∀ (w : World σ) (u : MultipartUpload),
      u.Initiated < cfg.ExpirationTime → cfg.DoDelete = true →
      (∀ e, (c.AbortMultipartUpload (c.ListParts w.client bucket u.Key u.UploadId).2
          bucket u.Key u.UploadId).1 = Resp.err e →
        (processUpload c cfg bucket w u).1.DeleteSuccess = some false) ∧
      (∀ x, (c.AbortMultipartUpload (c.ListParts w.client bucket u.Key u.UploadId).2
          bucket u.Key u.UploadId).1 = Resp.ok x →
        (processUpload c cfg bucket w u).1.DeleteSuccess = some true)) ∧
    (∀ (fuel : Nat) (w : World σ),
      viewed FileInfo.asIfAborted (processOneBucket fuel c cfg bucket w).1 =
          (processOneBucket fuel c.abortsSucceed cfg bucket w).1 ∧
        (processOneBucket fuel c cfg bucket w).2.client =
          (processOneBucket fuel c.abortsSucceed cfg bucket w).2.client) ∧
    (∀ (fuel : Nat) (w : World σ) (e : String),
      (processOneBucket fuel c cfg bucket w).1 = some (Resp.err e) →
      ∃ e0, e = listErrorf bucket e0 ∧
        listErrors (processOneBucket fuel c cfg bucket w).2.calls =
          listErrors w.calls ++ [(bucket, e0)]) ∧
    (∀ (fuel : Nat) (w : World σ) (files : List FileInfo),
      (processOneBucket fuel c cfg bucket w).1 = some (Resp.ok files) →
      (abortOutcomes (processOneBucket fuel c cfg bucket w).2.calls).map outcomeShown =
          (abortOutcomes w.calls).map outcomeShown ++ recordedOutcomes files ∧
        (∀ f ∈ files, f.DeleteSuccess ≠ none ↔ (f.ShouldDelete = true ∧ cfg.DoDelete = true)) ∧
        (abortOutcomes (processOneBucket fuel c cfg bucket w).2.calls).map (fun a => a.1) =
          abortCalls (processOneBucket fuel c cfg bucket w).2.calls ∧
        (SweepExact cfg w.calls →
          SweepExact cfg (processOneBucket fuel c cfg bucket w).2.calls)) := by
  refine ⟨?_, ?_, ?_, ?_⟩
  · intro w u hel hdo
    have hd : (decide (u.Initiated < cfg.ExpirationTime) && cfg.DoDelete) = true := by
      simp [hel, hdo]
    constructor
    · intro e he
      unfold processUpload
      simp [hd, abortMultipartUpload, he]
    · intro x hx
      unfold processUpload
      simp [hd, abortMultipartUpload, hx]
  · intro fuel w
    have hsim := processPages_viewed c c.abortsSucceed cfg bucket FileInfo.asIfAborted rfl
      (by
        intro w1 w2 u hw
        unfold processUpload
        by_cases hd : (decide (u.Initiated < cfg.ExpirationTime) && cfg.DoDelete) = true
        · simp [hd, abortMultipartUpload, Client.abortsSucceed, hw, FileInfo.asIfAborted]
        · simp [hd, Client.abortsSucceed, hw, FileInfo.asIfAborted])
      fuel none none w w [] [] rfl rfl
    refine ⟨?_, hsim.2⟩
    have hfix : viewed FileInfo.asIfAborted (processOneBucket fuel c.abortsSucceed cfg bucket w).1 =
        (processOneBucket fuel c.abortsSucceed cfg bucket w).1 := by
      apply viewed_of_fixed
      intro files hfiles
      refine processPages_all c.abortsSucceed cfg bucket (fun f => f.asIfAborted = f) ?_
        fuel none none w [] files (by simp) hfiles
      intro w1 u
      unfold processUpload
      by_cases hd : (decide (u.Initiated < cfg.ExpirationTime) && cfg.DoDelete) = true
      · simp [hd, abortMultipartUpload, Client.abortsSucceed, FileInfo.asIfAborted]
      · simp [hd, FileInfo.asIfAborted]
    rw [← hfix]
    exact hsim.1
  · intro fuel w e he
    rcases processPages_listErrors c cfg bucket fuel none none w [] with ⟨e0, h1, h2⟩ | ⟨hne, _⟩
    · refine ⟨e0, ?_, h2⟩
      have h1a : (processOneBucket fuel c cfg bucket w).1 =
          some (Resp.err (listErrorf bucket e0)) := h1
      rw [h1a] at he
      simpa using he.symm
    · exact absurd he (hne e)
  · intro fuel w files h
    refine ⟨processPages_outcomes c cfg bucket fuel none none w files h, ?_,
      abortOutcomes_calls _, fun hs => processPages_sweep c cfg bucket fuel none none w [] hs⟩
    exact processPages_all c cfg bucket
      (fun f => f.DeleteSuccess ≠ none ↔ (f.ShouldDelete = true ∧ cfg.DoDelete = true))
      (fun w0 u => processUpload_outcome_set c cfg bucket w0 u) fuel none none w [] files
      (by simp) h

/-- C10 at the scenario: the abort of V fails in bucket "media"; V is recorded
with `DeleteSuccess = false`, the scan returns its records, Z after V included,
and they are those of the run in which every abort succeeds, up to the outcome
recorded for V; the outcomes the records carry, true for X and false for V,
are those of the two abort calls of the scan. -/
theorem abort_failure_is_recovered_witness :
    (demoClient.AbortMultipartUpload
        (demoClient.ListParts () "media" uploadV.Key uploadV.UploadId).2
        "media" uploadV.Key uploadV.UploadId).1 = Resp.err "AccessDenied" ∧
      (processUpload demoClient (demoCfg true) "media" (World.fresh ()) uploadV).1.DeleteSuccess =
        some false ∧
      (processOneBucket 2 demoClient (demoCfg true) "media" (World.fresh ())).1 =
        some (Resp.ok mediaRecords) ∧
      (processOneBucket 2 demoClient.abortsSucceed (demoCfg true) "media" (World.fresh ())).1 =
        some (Resp.ok (mediaRecords.map FileInfo.asIfAborted)) ∧
      viewed FileInfo.asIfAborted
          (processOneBucket 2 demoClient (demoCfg true) "media" (World.fresh ())).1 =
        (processOneBucket 2 demoClient.abortsSucceed (demoCfg true) "media" (World.fresh ())).1 ∧
      recordedOutcomes mediaRecords = [("media", "x.bin", true), ("media", "v.bin", false)] ∧
      abortOutcomes
          (processOneBucket 2 demoClient (demoCfg true) "media" (World.fresh ())).2.calls =
        [(("media", "x.bin", "u-x"), true), (("media", "v.bin", "u-v"), false)] ∧
      (abortOutcomes
          (processOneBucket 2 demoClient (demoCfg true) "media" (World.fresh ())).2.calls).map
          outcomeShown =
        (abortOutcomes (World.fresh ()).calls).map outcomeShown ++ recordedOutcomes mediaRecords :=
  ⟨by decide,
    ((abort_failure_is_recovered demoClient (demoCfg true) "media").1 (World.fresh ()) uploadV
      (by decide) (by decide)).1 "AccessDenied" (by decide),
    by decide, by decide,
    ((abort_failure_is_recovered demoClient (demoCfg true) "media").2.1 2 (World.fresh ())).1,
    by decide, by decide,
    ((abort_failure_is_recovered demoClient (demoCfg true) "media").2.2.2 2 (World.fresh ())
      mediaRecords (by decide)).1⟩

/-- C11. Key truncation for the table view. With a rune of the ranges tested
in `truncateString` counted as width 2 and every other rune as width 1, and
`maxBytes ≥ 3`: `truncateString s maxBytes` is `s` itself when the width of
`s` is at most `maxBytes`; otherwise it is whole runes from the start of `s`
(not all of them, and as many as keep their width within `maxBytes - 3`)
followed by `...`, of total width at most `maxBytes`. Hence the key
`outputTable` shows, truncated at 120 only when three times its number of
runes exceeds 120, has width at most 120. -/
theorem truncateString_fits_width (s : String) (maxBytes : Int) (hmax : 3 ≤ maxBytes) :
    (displayWidth s ≤ maxBytes → truncateString s maxBytes = s) ∧
      (maxBytes < displayWidth s →
        ∃ kept rest, s.toList = kept ++ rest ∧ rest ≠ [] ∧
          truncateString s maxBytes = String.mk (kept ++ ['.', '.', '.']) ∧
          runesWidth kept ≤ maxBytes - 3 ∧
          (∀ r rest', rest = r :: rest' → maxBytes - 3 < runesWidth kept + runeWidth r) ∧
          displayWidth (truncateString s maxBytes) = runesWidth kept + 3) ∧
      displayWidth (truncateString s maxBytes) ≤ maxBytes ∧
      displayWidth (outputTableKey s) ≤ 120 := by
  have hdots : runesWidth ['.', '.', '.'] = 3 := by decide
  have hcut : ∀ (t : String) (m : Int), 3 ≤ m → m < displayWidth t →
      ∃ kept rest, t.toList = kept ++ rest ∧ rest ≠ [] ∧
        truncateString t m = String.mk (kept ++ ['.', '.', '.']) ∧
        runesWidth kept ≤ m - 3 ∧
        (∀ r rest', rest = r :: rest' → m - 3 < runesWidth kept + runeWidth r) ∧
        displayWidth (truncateString t m) = runesWidth kept + 3 := by
    intro t m hm hwide
    obtain ⟨kept, rest, h1, h2, h3, h4⟩ := truncateRunes_spec m t.toList 0 []
    have h3' : runesWidth kept ≤ m - 3 := by
      have := h3 (by omega)
      omega
    have htr : truncateString t m = String.mk (kept ++ ['.', '.', '.']) := by
      unfold truncateString
      rw [totalWidth_eq_runesWidth, if_neg (by unfold displayWidth at hwide; omega), h2]
      rfl
    refine ⟨kept, rest, h1, ?_, htr, h3', ?_, ?_⟩
    · intro hnil
      have hk : t.toList = kept := by rw [h1, hnil]; simp
      unfold displayWidth at hwide
      rw [hk] at hwide
      omega
    · intro r rest' heq
      have := h4 r rest' heq
      omega
    · rw [htr]
      unfold displayWidth
      have : (String.mk (kept ++ ['.', '.', '.'])).toList = kept ++ ['.', '.', '.'] := rfl
      rw [this, runesWidth_append, hdots]
  have hfit : ∀ (t : String) (m : Int), 3 ≤ m → displayWidth (truncateString t m) ≤ m := by
    intro t m hm
    by_cases hw : displayWidth t ≤ m
    · have : truncateString t m = t := by
        unfold truncateString
        rw [totalWidth_eq_runesWidth, if_pos (show runesWidth t.toList ≤ m from hw)]
      rw [this]; exact hw
    · obtain ⟨kept, rest, _, _, _, hk, _, hd⟩ := hcut t m hm (by omega)
      rw [hd]; omega
  refine ⟨?_, hcut s maxBytes hmax, hfit s maxBytes hmax, ?_⟩
  · intro hw
    unfold truncateString
    rw [totalWidth_eq_runesWidth, if_pos (show runesWidth s.toList ≤ maxBytes from hw)]
  · unfold outputTableKey
    by_cases hlen : (s.length : Int) * 3 > 120
    · rw [if_pos hlen]
      exact hfit s 120 (by decide)
    · rw [if_neg hlen]
      have hb := (runesWidth_bounds s.toList).2
      have hl : (s.toList.length : Int) = (s.length : Int) := rfl
      unfold displayWidth
      omega

/-- C11 at three keys: a key of width 34 truncated at 12 keeps the runes of
width 9 and ends in `...`; truncated at 34 it is unchanged; a key of 53 runes
and width 83 is shown whole and a key of width 149 is shown with width 120. -/
theorem truncateString_fits_width_witness :
    displayWidth demoKey = 34 ∧
      truncateString demoKey 12 = "备份/2025..." ∧
      displayWidth (truncateString demoKey 12) ≤ 12 ∧
      truncateString demoKey 34 = demoKey ∧
      outputTableKey demoLongKey = demoLongKey ∧
      displayWidth demoWideKey = 149 ∧
      displayWidth (outputTableKey demoWideKey) = 120 ∧
      displayWidth (outputTableKey demoWideKey) ≤ 120 ∧
      ∃ kept rest, demoKey.toList = kept ++ rest ∧ rest ≠ [] ∧
        truncateString demoKey 12 = String.mk (kept ++ ['.', '.', '.']) ∧
        runesWidth kept ≤ 12 - 3 ∧
        (∀ r rest', rest = r :: rest' → 12 - 3 < runesWidth kept + runeWidth r) ∧
        displayWidth (truncateString demoKey 12) = runesWidth kept + 3 :=
  ⟨by decide, by decide,
    (truncateString_fits_width demoKey 12 (by decide)).2.2.1,
    (truncateString_fits_width demoKey 34 (by decide)).1 (by decide),
    by decide, by decide, by decide,
    (truncateString_fits_width demoWideKey 120 (by decide)).2.2.2,
    (truncateString_fits_width demoKey 12 (by decide)).2.1 (by decide)⟩

end S4Cleaner
